import Mathlib

/-!
# Verification of the raycast_demo DDA raycaster

A shallow embedding in Lean 4 of the two geometric routines of
`src/main.c`:

* `castRayDDA` (main.c lines 9-131), the digital-differential-analysis
  grid raycaster, and
* `drawDottedLine` (main.c lines 332-345), the dashed-segment rasterizer.

Modelling conventions:

* C `float` values are modelled by exact rationals.  The program relies
  on one genuinely non-finite float behaviour: for an axis-aligned
  direction, division by `0.0f` produces `+infinity`, which then flows
  through `*`, `+` and `<` so that the corresponding axis never wins the
  "which grid line is nearer" comparison.  The type `FVal` (a rational
  or `+infinity`) models exactly the float values that arise here, with
  the C comparison and arithmetic semantics on them (`inf < x` is false,
  `x < inf` is true for finite `x`, `inf + x = inf`).  NaN never arises
  for the non-degenerate directions all the claims assume; the scalar
  multiplications applied to `inf` always have a positive finite factor
  (lemma `rayLenInit_inf_factor_pos` below).
* The C cast `(int)` of a float truncates toward zero; `truncQ` models
  this exactly (it is *not* the floor for negative non-integral input).
* `sqrtf(1 + (d.y/d.x)^2)` is irrational for general rational inputs.
  Every claim constrains `direction` to be a unit vector, and for a unit
  vector `sqrt(1 + (dy/dx)^2) = sqrt((dx^2+dy^2)/dx^2) = 1/|dx|`
  exactly; the lemmas `stepDir_sqrt_x` / `stepDir_sqrt_y` prove this
  identity over the reals.  `stepDirX` / `stepDirY` therefore embed the
  source expression as `1/|component|`, and as `+infinity` when the
  component is zero (the C float result of `sqrtf(1 + (y/0)^2)`).
* The `while` loop is embedded with explicit fuel.  `ddaFuel` computes,
  from the inputs alone, a fuel provably large enough that the loop
  exits through its own condition (`ddaLoop_cond_false`), so the
  fuelled function is the function the C program computes.  The state
  carries an `iters` counter (pure instrumentation, read by no other
  field) so that iteration-count claims can be stated.
* `drawDottedLine` calls raylib `Vector2Distance` / `Vector2Normalize`,
  which compute `sqrt((ex-sx)^2 + (ey-sy)^2)`.  The model takes that
  distance `D` as an explicit argument; every theorem constrains it by
  the defining equation `D ^ 2 = (ex-sx)^2 + (ey-sy)^2`, `0 <= D`.
  `normDir` embeds raylib `Vector2Normalize` including its zero-length
  guard (raylib returns the zero vector when the length is zero).
-/

namespace RaycastDemo

/-- A 2D vector of rationals, modelling raylib `Vector2`. -/
structure Vec2 where
  x : ℚ
  y : ℚ
deriving DecidableEq

/-- A C float value as it arises in `castRayDDA`: either a finite value
(modelled exactly as a rational) or `+infinity`. -/
inductive FVal where
  | fin : ℚ → FVal
  | inf : FVal
deriving DecidableEq

/-- C float `<` on the values that arise: `inf < x` is false for every
`x` (including `inf < inf`), `x < inf` is true for finite `x`. -/
def FVal.blt : FVal → FVal → Bool
  | .fin a, .fin b => decide (a < b)
  | .fin _, .inf => true
  | .inf, _ => false

/-- C float `<=` on the values that arise (used only by the flipped
tie-break variant studied in claim C3). -/
def FVal.ble : FVal → FVal → Bool
  | .fin a, .fin b => decide (a ≤ b)
  | .inf, .fin _ => false
  | _, .inf => true

/-- C float addition: `inf + x = x + inf = inf`. -/
def FVal.add : FVal → FVal → FVal
  | .fin a, .fin b => .fin (a + b)
  | _, _ => .inf

/-- C float multiplication by a finite value on the right, as in
`step_dir.x * tile_size`.  Every call site has a positive finite
second factor, so `inf * t = inf` is the C float result. -/
def FVal.scale : FVal → ℚ → FVal
  | .fin a, t => .fin (a * t)
  | .inf, _ => .inf

/-- C float multiplication by a finite value on the left, as in the
initial `ray_len` products.  Every call site whose right factor is
`inf` has a positive left factor (lemma `rayLenInit_inf_factor_pos`),
so `t * inf = inf` is the C float result. -/
def FVal.smul (t : ℚ) : FVal → FVal
  | .fin a => .fin (t * a)
  | .inf => .inf

/-- The C cast `(int)` applied to a float: truncation toward zero
(main.c lines 42-43 cast `start_pos.x / tile_size` this way). -/
def truncQ (q : ℚ) : ℤ := if 0 ≤ q then ⌊q⌋ else -⌊-q⌋

/-- Starting cell column, main.c line 42:
`cur_map_x = (int)(start_pos.x / tile_size)`. -/
def startCellX (p : Vec2) (tile : ℚ) : ℤ := truncQ (p.x / tile)

/-- Starting cell row, main.c line 43:
`cur_map_y = (int)(start_pos.y / tile_size)`. -/
def startCellY (p : Vec2) (tile : ℚ) : ℤ := truncQ (p.y / tile)

/-- Source line 34: `step_dir.x = sqrtf(1 + (d.y/d.x)^2)`.  For the
unit-length directions required by the contract this equals `1/|d.x|`
exactly (lemma `stepDir_sqrt_x`); for `d.x = 0` the C float value is
`+infinity` (division by zero, then square, add, sqrt). -/
def stepDirX (d : Vec2) : FVal :=
  if d.x = 0 then .inf else .fin (1 / |d.x|)

/-- Source line 35: `step_dir.y = sqrtf(1 + (d.x/d.y)^2)`, the mirror
image of `stepDirX`. -/
def stepDirY (d : Vec2) : FVal :=
  if d.y = 0 then .inf else .fin (1 / |d.y|)

/-- Source line 51: `step_x = (direction.x < 0.0f) ? -1 : 1`. -/
def stepIntX (d : Vec2) : ℤ := if d.x < 0 then -1 else 1

/-- Source line 52: `step_y = (direction.y < 0.0f) ? -1 : 1`. -/
def stepIntY (d : Vec2) : ℤ := if d.y < 0 then -1 else 1

/-- Source lines 63-67: the initial distance along the ray to the first
vertical grid line. -/
def rayLenInitX (p d : Vec2) (tile : ℚ) : FVal :=
  if stepIntX d = -1 then
    FVal.smul (p.x - (startCellX p tile) * tile) (stepDirX d)
  else
    FVal.smul (((startCellX p tile) + 1) * tile - p.x) (stepDirX d)

/-- Source lines 68-72: the initial distance along the ray to the first
horizontal grid line. -/
def rayLenInitY (p d : Vec2) (tile : ℚ) : FVal :=
  if stepIntY d = -1 then
    FVal.smul (p.y - (startCellY p tile) * tile) (stepDirY d)
  else
    FVal.smul (((startCellY p tile) + 1) * tile - p.y) (stepDirY d)

/-- The per-call constants of one `castRayDDA` traversal (everything
the loop body reads but never writes, except the map, which is passed
separately so that map-variation claims are easy to state). -/
structure DDAConsts where
  rows : ℤ
  cols : ℤ
  tile : ℚ
  maxD : ℚ
  sdx : FVal
  sdy : FVal
  stepX : ℤ
  stepY : ℤ
deriving DecidableEq

/-- The mutable state of the traversal loop, main.c lines 42-81: the
current cell, the two accumulated boundary distances, the committed
distance, the hit flag, plus an iteration counter (instrumentation for
the termination claims; no other field reads it). -/
structure DDAState where
  curX : ℤ
  curY : ℤ
  rayLenX : FVal
  rayLenY : FVal
  dist : FVal
  hit : Bool
  iters : ℕ
deriving DecidableEq

/-- The loop guard, main.c line 83:
`!has_hit_wall && distance < max_distance`. -/
def ddaCond (c : DDAConsts) (s : DDAState) : Bool :=
  !s.hit && s.dist.blt (.fin c.maxD)

/-- First half of the loop body, main.c lines 84-107: advance along the
axis whose next grid line is nearer (an exact tie takes the `else`
branch, i.e. the vertical step), committing the pre-increment boundary
distance and pushing that axis one cell further. -/
def ddaAdvance (c : DDAConsts) (s : DDAState) : DDAState :=
  if s.rayLenX.blt s.rayLenY then
    { s with curX := s.curX + c.stepX, dist := s.rayLenX,
             rayLenX := s.rayLenX.add (c.sdx.scale c.tile),
             iters := s.iters + 1 }
  else
    { s with curY := s.curY + c.stepY, dist := s.rayLenY,
             rayLenY := s.rayLenY.add (c.sdy.scale c.tile),
             iters := s.iters + 1 }

/-- Second half of the loop body, main.c lines 109-125: if the entered
cell is within the grid bounds and the map marks it as a wall, record
the hit; out-of-bounds cells are skipped without touching the map. -/
def ddaCheck (m : ℤ → ℤ → ℤ) (c : DDAConsts) (s : DDAState) : DDAState :=
  if 0 ≤ s.curX ∧ s.curX < c.cols ∧ 0 ≤ s.curY ∧ s.curY < c.rows then
    if m s.curY s.curX = 1 then { s with hit := true } else s
  else s

/-- One iteration of the loop body, main.c lines 84-125. -/
def ddaStep (m : ℤ → ℤ → ℤ) (c : DDAConsts) (s : DDAState) : DDAState :=
  ddaCheck m c (ddaAdvance c s)

/-- The fuelled loop.  With the fuel produced by `ddaFuel` the guard is
provably false at the returned state (`ddaLoop_cond_false`), so this is
the exact function computed by the C `while` loop. -/
def ddaLoop (m : ℤ → ℤ → ℤ) (c : DDAConsts) : ℕ → DDAState → DDAState
  | 0, s => s
  | n + 1, s => if ddaCond c s then ddaLoop m c n (ddaStep m c s) else s

/-- An upper bound on how many more times a single axis can be stepped
before its boundary distance reaches `maxD`; zero for an axis whose
boundary distance or increment is infinite (such an axis is stepped at
most once, and only when both are infinite). -/
def muTerm (maxD : ℚ) (r inc : FVal) : ℕ :=
  match r, inc with
  | .fin q, .fin i => (⌈(maxD - q) / i⌉).toNat
  | _, _ => 0

/-- A sufficient fuel for the loop from state `s` (proved sufficient in
`ddaLoop_cond_false`). -/
def ddaFuel (c : DDAConsts) (s : DDAState) : ℕ :=
  muTerm c.maxD s.rayLenX (c.sdx.scale c.tile) +
    muTerm c.maxD s.rayLenY (c.sdy.scale c.tile) + 2

/-- The traversal constants computed from the call arguments,
main.c lines 33-52. -/
def mkDDAConsts (d : Vec2) (rows cols : ℤ) (tile maxD : ℚ) : DDAConsts :=
  { rows := rows, cols := cols, tile := tile, maxD := maxD,
    sdx := stepDirX d, sdy := stepDirY d,
    stepX := stepIntX d, stepY := stepIntY d }

/-- The state at loop entry, main.c lines 42-81. -/
def ddaInitState (p d : Vec2) (tile : ℚ) : DDAState :=
  { curX := startCellX p tile, curY := startCellY p tile,
    rayLenX := rayLenInitX p d tile, rayLenY := rayLenInitY p d tile,
    dist := .fin 0, hit := false, iters := 0 }

/-- The state in which the C loop terminates. -/
def castRayRun (p d : Vec2) (m : ℤ → ℤ → ℤ) (rows cols : ℤ)
    (tile maxD : ℚ) : DDAState :=
  ddaLoop m (mkDDAConsts d rows cols tile maxD)
    (ddaFuel (mkDDAConsts d rows cols tile maxD) (ddaInitState p d tile))
    (ddaInitState p d tile)

/-- The full `castRayDDA` function, main.c lines 9-131: run the
traversal, then return the committed distance on a hit and
`max_distance` otherwise (line 130). -/
def castRayDDA (p d : Vec2) (m : ℤ → ℤ → ℤ) (rows cols : ℤ)
    (tile maxD : ℚ) : FVal :=
  if (castRayRun p d m rows cols tile maxD).hit then
    (castRayRun p d m rows cols tile maxD).dist
  else .fin maxD

/-- The number of loop iterations `castRayDDA` executes
(instrumentation read off the final state). -/
def castRaySteps (p d : Vec2) (m : ℤ → ℤ → ℤ) (rows cols : ℤ)
    (tile maxD : ℚ) : ℕ :=
  (castRayRun p d m rows cols tile maxD).iters

/-- Variant loop body for claim C3: the branch on line 85 reads
`ray_len.x <= ray_len.y`, so an exact tie advances the horizontal axis
first instead of the vertical one.  Identical to `ddaStep` otherwise. -/
def ddaStepFlipTie (m : ℤ → ℤ → ℤ) (c : DDAConsts) (s : DDAState) : DDAState :=
  ddaCheck m c
    (if s.rayLenX.ble s.rayLenY then
      { s with curX := s.curX + c.stepX, dist := s.rayLenX,
               rayLenX := s.rayLenX.add (c.sdx.scale c.tile),
               iters := s.iters + 1 }
    else
      { s with curY := s.curY + c.stepY, dist := s.rayLenY,
               rayLenY := s.rayLenY.add (c.sdy.scale c.tile),
               iters := s.iters + 1 })

/-- The fuelled loop of the flipped tie-break variant. -/
def ddaLoopFlipTie (m : ℤ → ℤ → ℤ) (c : DDAConsts) : ℕ → DDAState → DDAState
  | 0, s => s
  | n + 1, s =>
    if ddaCond c s then ddaLoopFlipTie m c n (ddaStepFlipTie m c s) else s

/-- The final state of the flipped tie-break traversal. -/
def castRayRunFlipTie (p d : Vec2) (m : ℤ → ℤ → ℤ) (rows cols : ℤ)
    (tile maxD : ℚ) : DDAState :=
  ddaLoopFlipTie m (mkDDAConsts d rows cols tile maxD)
    (ddaFuel (mkDDAConsts d rows cols tile maxD) (ddaInitState p d tile))
    (ddaInitState p d tile)

/-- `castRayDDA` with the flipped tie-break. -/
def castRayDDAFlipTie (p d : Vec2) (m : ℤ → ℤ → ℤ) (rows cols : ℤ)
    (tile maxD : ℚ) : FVal :=
  if (castRayRunFlipTie p d m rows cols tile maxD).hit then
    (castRayRunFlipTie p d m rows cols tile maxD).dist
  else .fin maxD

/-- Decides that no executed iteration of the original loop starts from
a state with `ray_len.x` exactly equal to `ray_len.y` (the diagonal
corner tie of claim C3). -/
def tieFreeLoop (m : ℤ → ℤ → ℤ) (c : DDAConsts) : ℕ → DDAState → Bool
  | 0, _ => true
  | n + 1, s =>
    if ddaCond c s then
      !(s.rayLenX == s.rayLenY) && tieFreeLoop m c n (ddaStep m c s)
    else true

/-- Pointwise update of one map cell (row `pr`, column `pc`). -/
def updateCell (m : ℤ → ℤ → ℤ) (pr pc v : ℤ) : ℤ → ℤ → ℤ :=
  fun r c => if r = pr ∧ c = pc then v else m r c

/-- The finite value of `min(stepLen.x, stepLen.y)` used by the
termination claim C6, with an infinite component absorbed by the
minimum; junk value 0 in the degenerate both-zero case the claims
exclude. -/
def minStepQ (d : Vec2) : ℚ :=
  match stepDirX d, stepDirY d with
  | .fin a, .fin b => min a b
  | .fin a, .inf => a
  | .inf, .fin b => b
  | .inf, .inf => 0

/-- Raylib `Vector2Normalize` applied to `end_pos - start_pos`, given
the precomputed length `D` of that vector (main.c line 334): divide
both components by the length, returning the zero vector when the
length is zero (the raylib guard). -/
def normDir (sp ep : Vec2) (D : ℚ) : Vec2 :=
  if D = 0 then ⟨0, 0⟩ else ⟨(ep.x - sp.x) / D, (ep.y - sp.y) / D⟩

/-- The loop of `drawDottedLine`, main.c lines 338-344: `k` iterations
remain, `i` is the current loop index, `sp` the current `start_pos`.
Each iteration first advances `start_pos` by one dash length, sets
`end_pos` one further dash length ahead, and emits the sub-segment when
the index is even.  Returns the list of emitted `DrawLineV` calls. -/
def dottedLoop (dir : Vec2) (len : ℚ) : ℕ → ℕ → Vec2 → List (Vec2 × Vec2)
  | 0, _, _ => []
  | k + 1, i, sp =>
    let sp1 : Vec2 := ⟨sp.x + dir.x * len, sp.y + dir.y * len⟩
    let ep1 : Vec2 := ⟨sp1.x + dir.x * len, sp1.y + dir.y * len⟩
    if i % 2 = 0 then (sp1, ep1) :: dottedLoop dir len k (i + 1) sp1
    else dottedLoop dir len k (i + 1) sp1

/-- The dashed-segment rasterizer with the dash length `len` as a
parameter and the segment length `D` passed explicitly (see the header
note on square roots): `steps = (int)(full_distance / (len * 2))`,
then the loop above starting at index 0. -/
def dottedLineSegs (sp ep : Vec2) (D len : ℚ) : List (Vec2 × Vec2) :=
  dottedLoop (normDir sp ep D) len (truncQ (D / (len * 2))).toNat 0 sp

/-- `drawDottedLine`, main.c lines 332-345: the source fixes the dash
length to `4.0f` (line 333). -/
def drawDottedLine (sp ep : Vec2) (D : ℚ) : List (Vec2 × Vec2) :=
  dottedLineSegs sp ep D 4

/-! ## Basic lemmas about the float model and the truncating cast -/

theorem FVal.blt_fin_fin (a b : ℚ) :
    (FVal.fin a).blt (.fin b) = decide (a < b) := rfl

theorem FVal.blt_fin_inf (a : ℚ) : (FVal.fin a).blt .inf = true := rfl

theorem FVal.blt_inf_left (v : FVal) : FVal.inf.blt v = false := by
  cases v <;> rfl

theorem FVal.exists_fin_of_blt {a b : FVal} (h : a.blt b = true) :
    ∃ q, a = .fin q := by
  cases a with
  | fin q => exact ⟨q, rfl⟩
  | inf => rw [FVal.blt_inf_left] at h; exact absurd h (by simp)

theorem FVal.blt_eq_ble_of_ne {a b : FVal} (h : a ≠ b) :
    a.blt b = a.ble b := by
  cases a with
  | fin p =>
    cases b with
    | fin q =>
      have hpq : p ≠ q := fun hc => h (by rw [hc])
      simp only [FVal.blt, FVal.ble]
      exact decide_eq_decide.mpr (lt_iff_le_and_ne.trans (by simp [hpq]))
    | inf => rfl
  | inf =>
    cases b with
    | fin q => rfl
    | inf => exact absurd rfl h

theorem truncQ_of_nonneg {q : ℚ} (h : 0 ≤ q) : truncQ q = ⌊q⌋ :=
  if_pos h

theorem truncQ_of_neg {q : ℚ} (h : q < 0) : truncQ q = ⌈q⌉ := by
  rw [truncQ, if_neg (not_le.mpr h), Int.floor_neg, neg_neg]

theorem lt_truncQ_add_one (q : ℚ) : q < truncQ q + 1 := by
  rcases le_or_lt 0 q with h | h
  · rw [truncQ_of_nonneg h]; exact_mod_cast Int.lt_floor_add_one q
  · rw [truncQ_of_neg h]
    have := Int.le_ceil q
    linarith

theorem truncQ_sub_one_lt (q : ℚ) : (truncQ q : ℚ) - 1 < q := by
  rcases le_or_lt 0 q with h | h
  · rw [truncQ_of_nonneg h]
    have := Int.floor_le q
    linarith
  · rw [truncQ_of_neg h]
    have := Int.ceil_lt_add_one q
    linarith

theorem truncQ_le_of_nonneg {q : ℚ} (h : 0 ≤ q) : (truncQ q : ℚ) ≤ q := by
  rw [truncQ_of_nonneg h]; exact Int.floor_le q

theorem truncQ_le_self_of_one_le {q : ℚ} (h : 1 ≤ truncQ q) :
    (truncQ q : ℚ) ≤ q := by
  rcases le_or_lt 0 q with h0 | h0
  · exact truncQ_le_of_nonneg h0
  · exfalso
    rw [truncQ_of_neg h0] at h
    have : (1 : ℚ) ≤ ⌈q⌉ := by exact_mod_cast h
    have := Int.ceil_lt_add_one q
    linarith

/-! ## The square root identity behind `stepDirX` / `stepDirY`

The source computes `sqrtf(1 + (d.y/d.x)^2)`.  For unit-length
direction vectors, which is what the function's documented contract
requires and what `main` always passes (it normalizes `target - origin`
before the call), this equals `1 / |d.x|` exactly. -/

theorem stepDir_sqrt_x (dx dy : ℝ) (hdx : dx ≠ 0)
    (hunit : dx ^ 2 + dy ^ 2 = 1) :
    Real.sqrt (1 + (dy / dx) ^ 2) = 1 / |dx| := by
  have hdx2 : dx ^ 2 ≠ 0 := pow_ne_zero 2 hdx
  have h : 1 + (dy / dx) ^ 2 = (1 / |dx|) ^ 2 := by
    rw [div_pow, div_pow, one_pow, sq_abs]
    field_simp
    linarith
  rw [h, Real.sqrt_sq (by positivity)]

theorem stepDir_sqrt_y (dx dy : ℝ) (hdy : dy ≠ 0)
    (hunit : dx ^ 2 + dy ^ 2 = 1) :
    Real.sqrt (1 + (dx / dy) ^ 2) = 1 / |dy| := by
  exact stepDir_sqrt_x dy dx hdy (by linarith)

/-- When `stepDirX d` is infinite (`d.x = 0`), the code takes the
positive step branch and the factor multiplying the infinite
`step_dir.x` in the initial `ray_len.x` is strictly positive, so the C
float product really is `+infinity` (never `0 * inf`, i.e. NaN). -/
theorem rayLenInit_inf_factor_pos_x (p d : Vec2) (tile : ℚ)
    (ht : 0 < tile) (h : stepDirX d = .inf) :
    stepIntX d = 1 ∧ 0 < ((startCellX p tile) + 1) * tile - p.x := by
  have hdx : d.x = 0 := by
    by_contra hc
    rw [stepDirX, if_neg hc] at h
    exact FVal.noConfusion h
  constructor
  · rw [stepIntX, if_neg (by rw [hdx]; exact lt_irrefl 0)]
  · have h1 : p.x / tile < startCellX p tile + 1 := by
      exact_mod_cast lt_truncQ_add_one (p.x / tile)
    have := (div_lt_iff₀ ht).mp h1
    push_cast at this ⊢
    linarith

/-- Mirror image of `rayLenInit_inf_factor_pos_x` for the vertical
axis. -/
theorem rayLenInit_inf_factor_pos_y (p d : Vec2) (tile : ℚ)
    (ht : 0 < tile) (h : stepDirY d = .inf) :
    stepIntY d = 1 ∧ 0 < ((startCellY p tile) + 1) * tile - p.y := by
  have hdy : d.y = 0 := by
    by_contra hc
    rw [stepDirY, if_neg hc] at h
    exact FVal.noConfusion h
  constructor
  · rw [stepIntY, if_neg (by rw [hdy]; exact lt_irrefl 0)]
  · have h1 : p.y / tile < startCellY p tile + 1 := by
      exact_mod_cast lt_truncQ_add_one (p.y / tile)
    have := (div_lt_iff₀ ht).mp h1
    push_cast at this ⊢
    linarith

/-! ## Structural lemmas about the loop -/

theorem ddaAdvance_of_blt {c : DDAConsts} {s : DDAState}
    (h : s.rayLenX.blt s.rayLenY = true) :
    ddaAdvance c s =
      { s with curX := s.curX + c.stepX, dist := s.rayLenX,
               rayLenX := s.rayLenX.add (c.sdx.scale c.tile),
               iters := s.iters + 1 } := by
  rw [ddaAdvance, if_pos h]

theorem ddaAdvance_of_not_blt {c : DDAConsts} {s : DDAState}
    (h : s.rayLenX.blt s.rayLenY = false) :
    ddaAdvance c s =
      { s with curY := s.curY + c.stepY, dist := s.rayLenY,
               rayLenY := s.rayLenY.add (c.sdy.scale c.tile),
               iters := s.iters + 1 } := by
  rw [ddaAdvance, if_neg (by rw [h]; exact Bool.false_ne_true)]

/-- `ddaCheck` either leaves the state unchanged or only raises the
hit flag, and it raises it exactly when the current cell is in bounds
and the map marks it. -/
theorem ddaCheck_cases (m : ℤ → ℤ → ℤ) (c : DDAConsts) (s : DDAState) :
    (ddaCheck m c s = s ∧
      ¬((0 ≤ s.curX ∧ s.curX < c.cols ∧ 0 ≤ s.curY ∧ s.curY < c.rows) ∧
        m s.curY s.curX = 1)) ∨
    (ddaCheck m c s = { s with hit := true } ∧
      (0 ≤ s.curX ∧ s.curX < c.cols ∧ 0 ≤ s.curY ∧ s.curY < c.rows) ∧
      m s.curY s.curX = 1) := by
  rw [ddaCheck]
  by_cases hb : 0 ≤ s.curX ∧ s.curX < c.cols ∧ 0 ≤ s.curY ∧ s.curY < c.rows
  · rw [if_pos hb]
    by_cases hw : m s.curY s.curX = 1
    · right
      rw [if_pos hw]
      exact ⟨rfl, hb, hw⟩
    · left
      rw [if_neg hw]
      exact ⟨rfl, fun hc => hw hc.2⟩
  · left
    rw [if_neg hb]
    exact ⟨rfl, fun hc => hb hc.1⟩

theorem ddaStep_iters (m : ℤ → ℤ → ℤ) (c : DDAConsts) (s : DDAState) :
    (ddaStep m c s).iters = s.iters + 1 := by
  rw [ddaStep]
  have hadv : (ddaAdvance c s).iters = s.iters + 1 := by
    cases hb : s.rayLenX.blt s.rayLenY with
    | true => rw [ddaAdvance_of_blt hb]
    | false => rw [ddaAdvance_of_not_blt hb]
  rcases ddaCheck_cases m c (ddaAdvance c s) with ⟨he, -⟩ | ⟨he, -⟩ <;>
    rw [he] <;> exact hadv

theorem ddaLoop_exit (m : ℤ → ℤ → ℤ) (c : DDAConsts) (n : ℕ)
    (s : DDAState) (h : ddaCond c s = false) : ddaLoop m c n s = s := by
  cases n with
  | zero => rfl
  | succ k => rw [ddaLoop, if_neg (by rw [h]; exact Bool.false_ne_true)]

theorem ddaLoopFlipTie_exit (m : ℤ → ℤ → ℤ) (c : DDAConsts) (n : ℕ)
    (s : DDAState) (h : ddaCond c s = false) :
    ddaLoopFlipTie m c n s = s := by
  cases n with
  | zero => rfl
  | succ k =>
    rw [ddaLoopFlipTie, if_neg (by rw [h]; exact Bool.false_ne_true)]

theorem ddaAdvance_hit (c : DDAConsts) (s : DDAState) :
    (ddaAdvance c s).hit = s.hit := by
  cases hb : s.rayLenX.blt s.rayLenY with
  | true => rw [ddaAdvance_of_blt hb]
  | false => rw [ddaAdvance_of_not_blt hb]

theorem ddaAdvance_curX (c : DDAConsts) (s : DDAState) :
    (ddaAdvance c s).curX = s.curX ∨
      (ddaAdvance c s).curX = s.curX + c.stepX := by
  cases hb : s.rayLenX.blt s.rayLenY with
  | true => right; rw [ddaAdvance_of_blt hb]
  | false => left; rw [ddaAdvance_of_not_blt hb]

/-! ## A map with no wall can never set the hit flag (claim C4) -/

theorem ddaLoop_no_wall (m : ℤ → ℤ → ℤ) (c : DDAConsts)
    (hm : ∀ r k, m r k ≠ 1) :
    ∀ (n : ℕ) (s : DDAState), s.hit = false →
      (ddaLoop m c n s).hit = false := by
  intro n
  induction n with
  | zero => intro s hs; exact hs
  | succ k ih =>
    intro s hs
    rw [ddaLoop]
    by_cases hc : ddaCond c s = true
    · rw [if_pos hc]
      apply ih
      rw [ddaStep]
      rcases ddaCheck_cases m c (ddaAdvance c s) with ⟨he, -⟩ | ⟨-, -, hw⟩
      · rw [he, ddaAdvance_hit]; exact hs
      · exact absurd hw (hm _ _)
    · rw [if_neg hc]; exact hs

/-! ## The traversal reads the map only at in-bounds cells (claim C7) -/

theorem ddaCheck_map_agree (m₁ m₂ : ℤ → ℤ → ℤ) (c : DDAConsts)
    (hm : ∀ r k, 0 ≤ r → r < c.rows → 0 ≤ k → k < c.cols →
      m₁ r k = m₂ r k) (s : DDAState) :
    ddaCheck m₁ c s = ddaCheck m₂ c s := by
  rw [ddaCheck, ddaCheck]
  by_cases hb : 0 ≤ s.curX ∧ s.curX < c.cols ∧ 0 ≤ s.curY ∧ s.curY < c.rows
  · rw [if_pos hb, if_pos hb,
      hm s.curY s.curX hb.2.2.1 hb.2.2.2 hb.1 hb.2.1]
  · rw [if_neg hb, if_neg hb]

theorem ddaLoop_map_agree (m₁ m₂ : ℤ → ℤ → ℤ) (c : DDAConsts)
    (hm : ∀ r k, 0 ≤ r → r < c.rows → 0 ≤ k → k < c.cols →
      m₁ r k = m₂ r k) :
    ∀ (n : ℕ) (s : DDAState), ddaLoop m₁ c n s = ddaLoop m₂ c n s := by
  intro n
  induction n with
  | zero => intro s; rfl
  | succ k ih =>
    intro s
    rw [ddaLoop, ddaLoop]
    by_cases hc : ddaCond c s = true
    · rw [if_pos hc, if_pos hc, ddaStep, ddaStep,
        ddaCheck_map_agree m₁ m₂ c hm]
      exact ih _
    · rw [if_neg hc, if_neg hc]

/-! ## The starting cell is never tested (claim C8)

The cell indices move monotonically (each axis always steps by the
same `+1` or `-1`), and occupancy is only tested on the cell just
entered by a step, so a traversal that starts in cell `(px, py)` tests
cells of the form `(px + a * stepX, py + b * stepY)` with
`a + b >= 1`, never the starting cell itself. -/

theorem ddaCheck_map_eq_of_cell (m₁ m₂ : ℤ → ℤ → ℤ) (c : DDAConsts)
    (s : DDAState) (h : m₁ s.curY s.curX = m₂ s.curY s.curX) :
    ddaCheck m₁ c s = ddaCheck m₂ c s := by
  rw [ddaCheck, ddaCheck, h]

theorem ddaCheck_cur (m : ℤ → ℤ → ℤ) (c : DDAConsts) (s : DDAState) :
    (ddaCheck m c s).curX = s.curX ∧ (ddaCheck m c s).curY = s.curY := by
  rcases ddaCheck_cases m c s with ⟨he, -⟩ | ⟨he, -⟩ <;> rw [he] <;>
    exact ⟨rfl, rfl⟩

theorem ddaStep_cur_cases (m : ℤ → ℤ → ℤ) (c : DDAConsts) (s : DDAState) :
    ((ddaStep m c s).curX = s.curX + c.stepX ∧
      (ddaStep m c s).curY = s.curY) ∨
    ((ddaStep m c s).curX = s.curX ∧
      (ddaStep m c s).curY = s.curY + c.stepY) := by
  rw [ddaStep, (ddaCheck_cur m c (ddaAdvance c s)).1,
    (ddaCheck_cur m c (ddaAdvance c s)).2]
  cases hb : s.rayLenX.blt s.rayLenY with
  | true => left; rw [ddaAdvance_of_blt hb]; exact ⟨rfl, rfl⟩
  | false => right; rw [ddaAdvance_of_not_blt hb]; exact ⟨rfl, rfl⟩

theorem ddaLoop_avoid_cell (m₁ m₂ : ℤ → ℤ → ℤ) (c : DDAConsts)
    (px py : ℤ)
    (hm : ∀ r k, ¬(r = py ∧ k = px) → m₁ r k = m₂ r k) :
    ∀ (n : ℕ) (s : DDAState),
      (∀ a b : ℕ, 1 ≤ a + b →
        ¬(s.curX + a * c.stepX = px ∧ s.curY + b * c.stepY = py)) →
      ddaLoop m₁ c n s = ddaLoop m₂ c n s := by
  intro n
  induction n with
  | zero => intro s _; rfl
  | succ k ih =>
    intro s hinv
    rw [ddaLoop, ddaLoop]
    by_cases hc : ddaCond c s = true
    · rw [if_pos hc, if_pos hc]
      have hstep : ddaStep m₁ c s = ddaStep m₂ c s := by
        rw [ddaStep, ddaStep]
        apply ddaCheck_map_eq_of_cell
        apply hm
        cases hb : s.rayLenX.blt s.rayLenY with
        | true =>
          rw [ddaAdvance_of_blt hb]
          dsimp only
          intro hcontra
          refine hinv 1 0 (by omega) ⟨?_, ?_⟩
          · push_cast; linarith [hcontra.2]
          · push_cast; linarith [hcontra.1]
        | false =>
          rw [ddaAdvance_of_not_blt hb]
          dsimp only
          intro hcontra
          refine hinv 0 1 (by omega) ⟨?_, ?_⟩
          · push_cast; linarith [hcontra.2]
          · push_cast; linarith [hcontra.1]
      rw [hstep]
      apply ih
      intro a b hab
      rcases ddaStep_cur_cases m₂ c s with ⟨hx, hy⟩ | ⟨hx, hy⟩
      · rw [hx, hy]
        intro hcontra
        refine hinv (a + 1) b (by omega) ⟨?_, hcontra.2⟩
        push_cast
        linarith [hcontra.1]
      · rw [hx, hy]
        intro hcontra
        refine hinv a (b + 1) (by omega) ⟨hcontra.1, ?_⟩
        push_cast
        linarith [hcontra.2]
    · rw [if_neg hc, if_neg hc]

/-! ## A registered hit always carries a finite nonnegative distance
(claim C1)

A boundary distance can be negative only before the first step of its
axis, and only when the origin coordinate is negative (the truncating
cast then overshoots the floor); in that situation the step that
commits the negative distance leaves the grid on that axis, so the
bounds check fails and no wall can be registered at a negative
distance. -/

theorem ddaCond_parts {c : DDAConsts} {s : DDAState}
    (h : ddaCond c s = true) :
    s.hit = false ∧ s.dist.blt (.fin c.maxD) = true := by
  rw [ddaCond, Bool.and_eq_true] at h
  exact ⟨by simpa using h.1, h.2⟩

theorem FVal.eq_inf_of_not_blt_inf {a : FVal} (h : a.blt .inf = false) :
    a = .inf := by
  cases a with
  | fin q => exact absurd h (by rw [FVal.blt_fin_inf]; simp)
  | inf => rfl

theorem ddaStep_ray_inv (m : ℤ → ℤ → ℤ) (c : DDAConsts)
    (ht : 0 < c.tile)
    (hsdx : ∀ q, c.sdx = .fin q → 0 < q)
    (hsdy : ∀ q, c.sdy = .fin q → 0 < q)
    (s : DDAState) (hcond : ddaCond c s = true)
    (hix : c.sdx = .inf → s.rayLenX = .inf)
    (hiy : c.sdy = .inf → s.rayLenY = .inf)
    (hboth : ¬(s.rayLenX = .inf ∧ s.rayLenY = .inf))
    (hnx : ∀ q, s.rayLenX = .fin q → q < 0 →
      c.stepX = -1 ∧ s.curX + c.stepX < 0)
    (hny : ∀ q, s.rayLenY = .fin q → q < 0 →
      c.stepY = -1 ∧ s.curY + c.stepY < 0) :
    (c.sdx = .inf → (ddaStep m c s).rayLenX = .inf) ∧
    (c.sdy = .inf → (ddaStep m c s).rayLenY = .inf) ∧
    ¬((ddaStep m c s).rayLenX = .inf ∧ (ddaStep m c s).rayLenY = .inf) ∧
    (∀ q, (ddaStep m c s).rayLenX = .fin q → q < 0 →
      c.stepX = -1 ∧ (ddaStep m c s).curX + c.stepX < 0) ∧
    (∀ q, (ddaStep m c s).rayLenY = .fin q → q < 0 →
      c.stepY = -1 ∧ (ddaStep m c s).curY + c.stepY < 0) ∧
    ((ddaStep m c s).hit = true →
      ∃ q, (ddaStep m c s).dist = .fin q ∧ 0 ≤ q) := by
  rw [ddaStep]
  cases hb : s.rayLenX.blt s.rayLenY with
  | true =>
    obtain ⟨q, hq⟩ := FVal.exists_fin_of_blt hb
    have hsdxf : ∃ p, c.sdx = .fin p ∧ 0 < p := by
      cases hsd : c.sdx with
      | fin p => exact ⟨p, rfl, hsdx p hsd⟩
      | inf => rw [hix hsd] at hq; exact absurd hq (by simp)
    obtain ⟨p, hp, hppos⟩ := hsdxf
    have hadv := ddaAdvance_of_blt (c := c) hb
    rw [hq, hp] at hadv
    rcases ddaCheck_cases m c (ddaAdvance c s) with ⟨he, -⟩ | ⟨he, hbnds, -⟩ <;>
      rw [he] <;> rw [hadv] <;> dsimp only
    · refine ⟨?_, ?_, ?_, ?_, ?_, ?_⟩
      · intro hsd; rw [hsd] at hp; exact absurd hp (by simp)
      · exact hiy
      · intro hcontra
        exact absurd hcontra.1 (by simp [FVal.add, FVal.scale])
      · intro q2 hq2 hq2neg
        simp only [FVal.scale, FVal.add, FVal.fin.injEq] at hq2
        have hq2v : q2 = q + p * c.tile := by linarith [hq2]
        have hqneg : q < 0 := by nlinarith
        obtain ⟨h1, h2⟩ := hnx q hq hqneg
        exact ⟨h1, by omega⟩
      · intro q2 hq2 hq2neg
        obtain ⟨h1, h2⟩ := hny q2 hq2 hq2neg
        exact ⟨h1, h2⟩
      · intro hhit
        rw [(ddaCond_parts hcond).1] at hhit
        exact absurd hhit (by simp)
    · rw [hadv] at hbnds
      dsimp only at hbnds
      refine ⟨?_, ?_, ?_, ?_, ?_, ?_⟩
      · intro hsd; rw [hsd] at hp; exact absurd hp (by simp)
      · exact hiy
      · intro hcontra
        exact absurd hcontra.1 (by simp [FVal.add, FVal.scale])
      · intro q2 hq2 hq2neg
        simp only [FVal.scale, FVal.add, FVal.fin.injEq] at hq2
        have hq2v : q2 = q + p * c.tile := by linarith [hq2]
        have hqneg : q < 0 := by nlinarith
        obtain ⟨h1, h2⟩ := hnx q hq hqneg
        exact ⟨h1, by omega⟩
      · intro q2 hq2 hq2neg
        obtain ⟨h1, h2⟩ := hny q2 hq2 hq2neg
        exact ⟨h1, h2⟩
      · intro _
        refine ⟨q, rfl, ?_⟩
        by_contra hqneg
        push_neg at hqneg
        obtain ⟨-, h2⟩ := hnx q hq hqneg
        omega
  | false =>
    have hyfin : ∃ q, s.rayLenY = .fin q := by
      cases hy : s.rayLenY with
      | fin q => exact ⟨q, rfl⟩
      | inf =>
        rw [hy] at hb
        exact absurd (FVal.eq_inf_of_not_blt_inf hb)
          (fun hx => hboth ⟨hx, hy⟩)
    obtain ⟨q, hq⟩ := hyfin
    have hsdyf : ∃ p, c.sdy = .fin p ∧ 0 < p := by
      cases hsd : c.sdy with
      | fin p => exact ⟨p, rfl, hsdy p hsd⟩
      | inf => rw [hiy hsd] at hq; exact absurd hq (by simp)
    obtain ⟨p, hp, hppos⟩ := hsdyf
    have hadv := ddaAdvance_of_not_blt (c := c) hb
    rw [hq, hp] at hadv
    rcases ddaCheck_cases m c (ddaAdvance c s) with ⟨he, -⟩ | ⟨he, hbnds, -⟩ <;>
      rw [he] <;> rw [hadv] <;> dsimp only
    · refine ⟨?_, ?_, ?_, ?_, ?_, ?_⟩
      · exact hix
      · intro hsd; rw [hsd] at hp; exact absurd hp (by simp)
      · intro hcontra
        exact absurd hcontra.2 (by simp [FVal.add, FVal.scale])
      · intro q2 hq2 hq2neg
        obtain ⟨h1, h2⟩ := hnx q2 hq2 hq2neg
        exact ⟨h1, h2⟩
      · intro q2 hq2 hq2neg
        simp only [FVal.scale, FVal.add, FVal.fin.injEq] at hq2
        have hq2v : q2 = q + p * c.tile := by linarith [hq2]
        have hqneg : q < 0 := by nlinarith
        obtain ⟨h1, h2⟩ := hny q hq hqneg
        exact ⟨h1, by omega⟩
      · intro hhit
        rw [(ddaCond_parts hcond).1] at hhit
        exact absurd hhit (by simp)
    · rw [hadv] at hbnds
      dsimp only at hbnds
      refine ⟨?_, ?_, ?_, ?_, ?_, ?_⟩
      · exact hix
      · intro hsd; rw [hsd] at hp; exact absurd hp (by simp)
      · intro hcontra
        exact absurd hcontra.2 (by simp [FVal.add, FVal.scale])
      · intro q2 hq2 hq2neg
        obtain ⟨h1, h2⟩ := hnx q2 hq2 hq2neg
        exact ⟨h1, h2⟩
      · intro q2 hq2 hq2neg
        simp only [FVal.scale, FVal.add, FVal.fin.injEq] at hq2
        have hq2v : q2 = q + p * c.tile := by linarith [hq2]
        have hqneg : q < 0 := by nlinarith
        obtain ⟨h1, h2⟩ := hny q hq hqneg
        exact ⟨h1, by omega⟩
      · intro _
        refine ⟨q, rfl, ?_⟩
        by_contra hqneg
        push_neg at hqneg
        obtain ⟨-, h2⟩ := hny q hq hqneg
        omega

theorem ddaLoop_ray_inv (m : ℤ → ℤ → ℤ) (c : DDAConsts)
    (ht : 0 < c.tile)
    (hsdx : ∀ q, c.sdx = .fin q → 0 < q)
    (hsdy : ∀ q, c.sdy = .fin q → 0 < q) :
    ∀ (n : ℕ) (s : DDAState),
      (c.sdx = .inf → s.rayLenX = .inf) →
      (c.sdy = .inf → s.rayLenY = .inf) →
      ¬(s.rayLenX = .inf ∧ s.rayLenY = .inf) →
      (∀ q, s.rayLenX = .fin q → q < 0 →
        c.stepX = -1 ∧ s.curX + c.stepX < 0) →
      (∀ q, s.rayLenY = .fin q → q < 0 →
        c.stepY = -1 ∧ s.curY + c.stepY < 0) →
      (s.hit = true → ∃ q, s.dist = .fin q ∧ 0 ≤ q) →
      ((ddaLoop m c n s).hit = true →
        ∃ q, (ddaLoop m c n s).dist = .fin q ∧ 0 ≤ q) := by
  intro n
  induction n with
  | zero => intro s _ _ _ _ _ hhit; exact hhit
  | succ k ih =>
    intro s hix hiy hboth hnx hny hhit
    rw [ddaLoop]
    by_cases hc : ddaCond c s = true
    · rw [if_pos hc]
      obtain ⟨h1, h2, h3, h4, h5, h6⟩ :=
        ddaStep_ray_inv m c ht hsdx hsdy s hc hix hiy hboth hnx hny
      exact ih (ddaStep m c s) h1 h2 h3 h4 h5 h6
    · rw [if_neg hc]; exact hhit

/-! ## Termination: the potential argument (claim C6)

`muTerm maxD r inc` bounds how many more steps an axis with boundary
distance `r` and per-step increment `inc` can take while the committed
distance stays below `maxD`.  Each executed iteration either lowers
the total potential by one or produces a state whose guard is already
false, so `potential + 2` fuel always suffices and the iteration count
is at most `potential + 1`. -/

theorem muTerm_decrement {maxD q i : ℚ} (hi : 0 < i) (hq : q < maxD) :
    muTerm maxD (.fin (q + i)) (.fin i) + 1 = muTerm maxD (.fin q) (.fin i) := by
  rw [muTerm, muTerm]
  have hquot : (maxD - (q + i)) / i = (maxD - q) / i - 1 := by
    rw [show maxD - (q + i) = maxD - q - i from by ring, sub_div,
      div_self (ne_of_gt hi)]
  rw [hquot]
  have hceil : ⌈(maxD - q) / i - 1⌉ = ⌈(maxD - q) / i⌉ - 1 := by
    exact_mod_cast Int.ceil_sub_int ((maxD - q) / i) 1
  rw [hceil]
  have hpos : 0 < ⌈(maxD - q) / i⌉ :=
    Int.ceil_pos.mpr (div_pos (by linarith) hi)
  omega

/-- One executed iteration either yields a state whose guard is false
or strictly lowers the potential, and it preserves the side conditions
the potential argument needs. -/
theorem ddaStep_mu (m : ℤ → ℤ → ℤ) (c : DDAConsts)
    (ht : 0 < c.tile)
    (hsdx : ∀ q, c.sdx = .fin q → 0 < q)
    (hsdy : ∀ q, c.sdy = .fin q → 0 < q)
    (s : DDAState)
    (hix : c.sdx = .inf → s.rayLenX = .inf)
    (hiy : c.sdy = .inf → s.rayLenY = .inf) :
    ((c.sdx = .inf → (ddaStep m c s).rayLenX = .inf) ∧
     (c.sdy = .inf → (ddaStep m c s).rayLenY = .inf)) ∧
    (ddaCond c (ddaStep m c s) = false ∨
      muTerm c.maxD (ddaStep m c s).rayLenX (c.sdx.scale c.tile) +
        muTerm c.maxD (ddaStep m c s).rayLenY (c.sdy.scale c.tile) + 1 ≤
      muTerm c.maxD s.rayLenX (c.sdx.scale c.tile) +
        muTerm c.maxD s.rayLenY (c.sdy.scale c.tile)) := by
  have hfields : ((ddaStep m c s).rayLenX = (ddaAdvance c s).rayLenX ∧
      (ddaStep m c s).rayLenY = (ddaAdvance c s).rayLenY) ∧
      ((ddaStep m c s).dist = (ddaAdvance c s).dist ∧
      ((ddaStep m c s).hit = (ddaAdvance c s).hit ∨
        (ddaStep m c s).hit = true)) := by
    rw [ddaStep]
    rcases ddaCheck_cases m c (ddaAdvance c s) with ⟨he, -⟩ | ⟨he, -⟩ <;>
      rw [he]
    · exact ⟨⟨rfl, rfl⟩, rfl, Or.inl rfl⟩
    · exact ⟨⟨rfl, rfl⟩, rfl, Or.inr rfl⟩
  obtain ⟨⟨hrx, hry⟩, hdist, -⟩ := hfields
  cases hb : s.rayLenX.blt s.rayLenY with
  | true =>
    obtain ⟨q, hq⟩ := FVal.exists_fin_of_blt hb
    have hsdxf : ∃ p, c.sdx = .fin p ∧ 0 < p := by
      cases hsd : c.sdx with
      | fin p => exact ⟨p, rfl, hsdx p hsd⟩
      | inf => rw [hix hsd] at hq; exact absurd hq (by simp)
    obtain ⟨p, hp, hppos⟩ := hsdxf
    have hadv := ddaAdvance_of_blt (c := c) hb
    constructor
    · constructor
      · intro hsd; rw [hsd] at hp; exact absurd hp (by simp)
      · intro hsd
        rw [hry, hadv]
        exact hiy hsd
    · by_cases hqmax : q < c.maxD
      · right
        rw [hrx, hry, hadv]
        dsimp only
        rw [hq, hp]
        simp only [FVal.scale, FVal.add]
        have hdec := muTerm_decrement (mul_pos hppos ht) hqmax
        omega
      · left
        rw [ddaCond]
        have : (ddaStep m c s).dist = .fin q := by
          rw [hdist, hadv]; exact hq
        rw [this, FVal.blt_fin_fin, decide_eq_false hqmax]
        simp
  | false =>
    have hadv := ddaAdvance_of_not_blt (c := c) hb
    cases hy : s.rayLenY with
    | inf =>
      have hxinf : s.rayLenX = .inf := by
        rw [hy] at hb
        exact FVal.eq_inf_of_not_blt_inf hb
      constructor
      · constructor
        · intro _; rw [hrx, hadv]; exact hxinf
        · intro _
          rw [hry, hadv]
          dsimp only
          rw [hy]
          cases hsd : c.sdy <;> simp [FVal.scale, FVal.add]
      · left
        rw [ddaCond]
        have : (ddaStep m c s).dist = .inf := by
          rw [hdist, hadv]; exact hy
        rw [this, FVal.blt_inf_left]
        simp
    | fin q =>
      have hsdyf : ∃ p, c.sdy = .fin p ∧ 0 < p := by
        cases hsd : c.sdy with
        | fin p => exact ⟨p, rfl, hsdy p hsd⟩
        | inf => rw [hiy hsd] at hy; exact absurd hy (by simp)
      obtain ⟨p, hp, hppos⟩ := hsdyf
      constructor
      · constructor
        · intro hsd; rw [hrx, hadv]; exact hix hsd
        · intro hsd; rw [hsd] at hp; exact absurd hp (by simp)
      · by_cases hqmax : q < c.maxD
        · right
          rw [hrx, hry, hadv]
          dsimp only
          rw [hy, hp]
          simp only [FVal.scale, FVal.add]
          have hdec := muTerm_decrement (mul_pos hppos ht) hqmax
          omega
        · left
          rw [ddaCond]
          have : (ddaStep m c s).dist = .fin q := by
            rw [hdist, hadv]; exact hy
          rw [this, FVal.blt_fin_fin, decide_eq_false hqmax]
          simp

theorem ddaLoop_iters_le (m : ℤ → ℤ → ℤ) (c : DDAConsts)
    (ht : 0 < c.tile)
    (hsdx : ∀ q, c.sdx = .fin q → 0 < q)
    (hsdy : ∀ q, c.sdy = .fin q → 0 < q) :
    ∀ (n : ℕ) (s : DDAState),
      (c.sdx = .inf → s.rayLenX = .inf) →
      (c.sdy = .inf → s.rayLenY = .inf) →
      (ddaLoop m c n s).iters ≤ s.iters +
        (muTerm c.maxD s.rayLenX (c.sdx.scale c.tile) +
          muTerm c.maxD s.rayLenY (c.sdy.scale c.tile)) + 1 := by
  intro n
  induction n with
  | zero => intro s _ _; rw [ddaLoop]; omega
  | succ k ih =>
    intro s hix hiy
    rw [ddaLoop]
    by_cases hc : ddaCond c s = true
    · rw [if_pos hc]
      obtain ⟨⟨h1, h2⟩, hdisj⟩ := ddaStep_mu m c ht hsdx hsdy s hix hiy
      rcases hdisj with hfalse | hdec
      · rw [ddaLoop_exit m c k _ hfalse, ddaStep_iters]
        omega
      · have hiter := ddaStep_iters m c s
        have := ih (ddaStep m c s) h1 h2
        omega
    · rw [if_neg hc]; omega

theorem ddaLoop_cond_false (m : ℤ → ℤ → ℤ) (c : DDAConsts)
    (ht : 0 < c.tile)
    (hsdx : ∀ q, c.sdx = .fin q → 0 < q)
    (hsdy : ∀ q, c.sdy = .fin q → 0 < q) :
    ∀ (n : ℕ) (s : DDAState),
      (c.sdx = .inf → s.rayLenX = .inf) →
      (c.sdy = .inf → s.rayLenY = .inf) →
      muTerm c.maxD s.rayLenX (c.sdx.scale c.tile) +
        muTerm c.maxD s.rayLenY (c.sdy.scale c.tile) + 2 ≤ n →
      ddaCond c (ddaLoop m c n s) = false := by
  intro n
  induction n with
  | zero => intro s _ _ hn; omega
  | succ k ih =>
    intro s hix hiy hn
    rw [ddaLoop]
    by_cases hc : ddaCond c s = true
    · rw [if_pos hc]
      obtain ⟨⟨h1, h2⟩, hdisj⟩ := ddaStep_mu m c ht hsdx hsdy s hix hiy
      rcases hdisj with hfalse | hdec
      · rw [ddaLoop_exit m c k _ hfalse]
        exact hfalse
      · exact ih (ddaStep m c s) h1 h2 (by omega)
    · rw [if_neg hc]
      exact Bool.eq_false_iff.mpr hc

/-! ## The step directions are positive and the initial boundary
distances inherit infinity from the step directions -/

theorem stepDirX_pos (d : Vec2) (q : ℚ) (h : stepDirX d = .fin q) :
    0 < q := by
  rw [stepDirX] at h
  by_cases hdx : d.x = 0
  · rw [if_pos hdx] at h; exact absurd h (by simp)
  · rw [if_neg hdx] at h
    have : (1 : ℚ) / |d.x| = q := FVal.fin.inj h
    rw [← this]
    positivity

theorem stepDirY_pos (d : Vec2) (q : ℚ) (h : stepDirY d = .fin q) :
    0 < q := by
  rw [stepDirY] at h
  by_cases hdy : d.y = 0
  · rw [if_pos hdy] at h; exact absurd h (by simp)
  · rw [if_neg hdy] at h
    have : (1 : ℚ) / |d.y| = q := FVal.fin.inj h
    rw [← this]
    positivity

theorem rayLenInitX_inf (p d : Vec2) (tile : ℚ) (h : stepDirX d = .inf) :
    rayLenInitX p d tile = .inf := by
  rw [rayLenInitX, h]
  split <;> rfl

theorem rayLenInitY_inf (p d : Vec2) (tile : ℚ) (h : stepDirY d = .inf) :
    rayLenInitY p d tile = .inf := by
  rw [rayLenInitY, h]
  split <;> rfl

/-- With the fuel `ddaFuel` the guard really is false at the returned
state: the C loop terminates and the embedding computes its exact
result. -/
theorem castRayRun_cond_false (p d : Vec2) (m : ℤ → ℤ → ℤ)
    (rows cols : ℤ) (tile maxD : ℚ) (ht : 0 < tile) :
    ddaCond (mkDDAConsts d rows cols tile maxD)
      (castRayRun p d m rows cols tile maxD) = false := by
  rw [castRayRun]
  exact ddaLoop_cond_false m (mkDDAConsts d rows cols tile maxD) ht
    (fun q h => stepDirX_pos d q h) (fun q h => stepDirY_pos d q h)
    _ (ddaInitState p d tile)
    (fun h => rayLenInitX_inf p d tile h)
    (fun h => rayLenInitY_inf p d tile h)
    (le_refl _)

theorem castRaySteps_le_mu (p d : Vec2) (m : ℤ → ℤ → ℤ)
    (rows cols : ℤ) (tile maxD : ℚ) (ht : 0 < tile) :
    castRaySteps p d m rows cols tile maxD ≤
      muTerm maxD (rayLenInitX p d tile) ((stepDirX d).scale tile) +
        muTerm maxD (rayLenInitY p d tile) ((stepDirY d).scale tile) + 1 := by
  rw [castRaySteps, castRayRun]
  have := ddaLoop_iters_le m (mkDDAConsts d rows cols tile maxD) ht
    (fun q h => stepDirX_pos d q h) (fun q h => stepDirY_pos d q h)
    (ddaFuel (mkDDAConsts d rows cols tile maxD) (ddaInitState p d tile))
    (ddaInitState p d tile)
    (fun h => rayLenInitX_inf p d tile h)
    (fun h => rayLenInitY_inf p d tile h)
  simpa only [mkDDAConsts, ddaInitState, Nat.zero_add] using this

theorem stepDirX_eq_inf {d : Vec2} (h : stepDirX d = .inf) : d.x = 0 := by
  by_contra hc
  rw [stepDirX, if_neg hc] at h
  exact FVal.noConfusion h

theorem stepDirY_eq_inf {d : Vec2} (h : stepDirY d = .inf) : d.y = 0 := by
  by_contra hc
  rw [stepDirY, if_neg hc] at h
  exact FVal.noConfusion h

theorem intCast_toNat_le {n : ℤ} {B : ℚ} (h : (n : ℚ) ≤ B) (hB : 0 ≤ B) :
    ((n.toNat : ℕ) : ℚ) ≤ B := by
  rcases le_or_lt n 0 with hn | hn
  · rw [Int.toNat_of_nonpos hn]
    exact_mod_cast hB
  · have h2 : ((n.toNat : ℕ) : ℚ) = ((n : ℤ) : ℚ) := by
      exact_mod_cast Int.toNat_of_nonneg (le_of_lt hn)
    rw [h2]; exact h

/-- The initial boundary distance of a finite axis exceeds minus one
full cell crossing: the truncating cast puts the start coordinate
within one cell of the cell boundary it is measured from. -/
theorem rayLenInitX_fin_lb (p d : Vec2) (tile : ℚ) (ht : 0 < tile)
    (q : ℚ) (hq : stepDirX d = .fin q) :
    ∃ r, rayLenInitX p d tile = .fin r ∧ -(q * tile) < r := by
  have hqpos := stepDirX_pos d q hq
  rw [rayLenInitX, hq]
  by_cases hs : stepIntX d = -1
  · rw [if_pos hs]
    refine ⟨(p.x - (startCellX p tile) * tile) * q, by rw [FVal.smul], ?_⟩
    have h1 : (truncQ (p.x / tile) : ℚ) - 1 < p.x / tile :=
      truncQ_sub_one_lt (p.x / tile)
    have h2 : ((startCellX p tile : ℚ) - 1) * tile < p.x := by
      rw [startCellX]
      calc ((truncQ (p.x / tile) : ℚ) - 1) * tile
          < (p.x / tile) * tile := by
            exact mul_lt_mul_of_pos_right h1 ht
        _ = p.x := by field_simp
    nlinarith
  · rw [if_neg hs]
    refine ⟨(((startCellX p tile) + 1) * tile - p.x) * q,
      by rw [FVal.smul], ?_⟩
    have h1 : p.x / tile < truncQ (p.x / tile) + 1 :=
      lt_truncQ_add_one (p.x / tile)
    have h2 : p.x < ((startCellX p tile : ℚ) + 1) * tile := by
      rw [startCellX]
      calc p.x = (p.x / tile) * tile := by field_simp
        _ < ((truncQ (p.x / tile) : ℚ) + 1) * tile := by
            exact mul_lt_mul_of_pos_right h1 ht
    nlinarith

theorem rayLenInitY_fin_lb (p d : Vec2) (tile : ℚ) (ht : 0 < tile)
    (q : ℚ) (hq : stepDirY d = .fin q) :
    ∃ r, rayLenInitY p d tile = .fin r ∧ -(q * tile) < r := by
  have hqpos := stepDirY_pos d q hq
  rw [rayLenInitY, hq]
  by_cases hs : stepIntY d = -1
  · rw [if_pos hs]
    refine ⟨(p.y - (startCellY p tile) * tile) * q, by rw [FVal.smul], ?_⟩
    have h1 : (truncQ (p.y / tile) : ℚ) - 1 < p.y / tile :=
      truncQ_sub_one_lt (p.y / tile)
    have h2 : ((startCellY p tile : ℚ) - 1) * tile < p.y := by
      rw [startCellY]
      calc ((truncQ (p.y / tile) : ℚ) - 1) * tile
          < (p.y / tile) * tile := by
            exact mul_lt_mul_of_pos_right h1 ht
        _ = p.y := by field_simp
    nlinarith
  · rw [if_neg hs]
    refine ⟨(((startCellY p tile) + 1) * tile - p.y) * q,
      by rw [FVal.smul], ?_⟩
    have h1 : p.y / tile < truncQ (p.y / tile) + 1 :=
      lt_truncQ_add_one (p.y / tile)
    have h2 : p.y < ((startCellY p tile : ℚ) + 1) * tile := by
      rw [startCellY]
      calc p.y = (p.y / tile) * tile := by field_simp
        _ < ((truncQ (p.y / tile) : ℚ) + 1) * tile := by
            exact mul_lt_mul_of_pos_right h1 ht
    nlinarith

theorem muTerm_le_bound (maxD r i : ℚ) (hi : 0 < i) (hr : -i < r)
    (hmax : 0 ≤ maxD) :
    ((muTerm maxD (.fin r) (.fin i) : ℕ) : ℚ) ≤ maxD / i + 2 := by
  rw [muTerm]
  apply intCast_toNat_le
  · have h1 : (maxD - r) / i < maxD / i + 1 := by
      rw [div_lt_iff₀ hi, add_mul, div_mul_cancel₀ _ (ne_of_gt hi)]
      linarith
    have h2 := Int.ceil_lt_add_one ((maxD - r) / i)
    linarith
  · have : 0 ≤ maxD / i := div_nonneg hmax (le_of_lt hi)
    linarith

/-- The amended iteration bound: twice the budget divided by one cell
crossing of the slower-crossing axis, plus the constant 5 (claim C6
corrected; one factor of the budget per axis, plus the slack of the
partial start cell, the final over-budget step, and the rounding). -/
theorem castRaySteps_bound (p d : Vec2) (m : ℤ → ℤ → ℤ)
    (rows cols : ℤ) (tile maxD : ℚ) (ht : 0 < tile) (hmax : 0 ≤ maxD)
    (hnd : ¬(d.x = 0 ∧ d.y = 0)) :
    ((castRaySteps p d m rows cols tile maxD : ℕ) : ℚ) ≤
      2 * (maxD / (tile * minStepQ d)) + 5 := by
  have hsteps := castRaySteps_le_mu p d m rows cols tile maxD ht
  rw [minStepQ]
  cases hx : stepDirX d with
  | fin a =>
    have hapos := stepDirX_pos d a hx
    obtain ⟨rx, hrx, hrxlb⟩ := rayLenInitX_fin_lb p d tile ht a hx
    have hmux : ((muTerm maxD (rayLenInitX p d tile)
        ((stepDirX d).scale tile) : ℕ) : ℚ) ≤ maxD / (a * tile) + 2 := by
      rw [hrx, hx, FVal.scale]
      exact muTerm_le_bound maxD rx (a * tile) (mul_pos hapos ht) hrxlb hmax
    cases hy : stepDirY d with
    | fin b =>
      have hbpos := stepDirY_pos d b hy
      obtain ⟨ry, hry, hrylb⟩ := rayLenInitY_fin_lb p d tile ht b hy
      have hmuy : ((muTerm maxD (rayLenInitY p d tile)
          ((stepDirY d).scale tile) : ℕ) : ℚ) ≤ maxD / (b * tile) + 2 := by
        rw [hry, hy, FVal.scale]
        exact muTerm_le_bound maxD ry (b * tile) (mul_pos hbpos ht) hrylb hmax
      have hmq : 0 < min a b := lt_min hapos hbpos
      have hxle : maxD / (a * tile) ≤ maxD / (tile * min a b) := by
        apply div_le_div_of_nonneg_left hmax (by positivity)
        calc tile * min a b ≤ tile * a := by
              exact mul_le_mul_of_nonneg_left (min_le_left a b)
                (le_of_lt ht)
          _ = a * tile := mul_comm tile a
      have hyle : maxD / (b * tile) ≤ maxD / (tile * min a b) := by
        apply div_le_div_of_nonneg_left hmax (by positivity)
        calc tile * min a b ≤ tile * b := by
              exact mul_le_mul_of_nonneg_left (min_le_right a b)
                (le_of_lt ht)
          _ = b * tile := mul_comm tile b
      have hcast : ((castRaySteps p d m rows cols tile maxD : ℕ) : ℚ) ≤
          ((muTerm maxD (rayLenInitX p d tile)
            ((stepDirX d).scale tile) : ℕ) : ℚ) +
          ((muTerm maxD (rayLenInitY p d tile)
            ((stepDirY d).scale tile) : ℕ) : ℚ) + 1 := by
        exact_mod_cast hsteps
      linarith
    | inf =>
      have hmuy : muTerm maxD (rayLenInitY p d tile)
          ((stepDirY d).scale tile) = 0 := by
        rw [rayLenInitY_inf p d tile hy]
        rfl
      have hxle : maxD / (a * tile) ≤ maxD / (tile * a) := by
        rw [mul_comm a tile]
      have hdivpos : 0 ≤ maxD / (tile * a) :=
        div_nonneg hmax (by positivity)
      have hcast : ((castRaySteps p d m rows cols tile maxD : ℕ) : ℚ) ≤
          ((muTerm maxD (rayLenInitX p d tile)
            ((stepDirX d).scale tile) : ℕ) : ℚ) + 0 + 1 := by
        rw [hmuy] at hsteps
        exact_mod_cast hsteps
      linarith
  | inf =>
    have hmux : muTerm maxD (rayLenInitX p d tile)
        ((stepDirX d).scale tile) = 0 := by
      rw [rayLenInitX_inf p d tile hx]
      rfl
    cases hy : stepDirY d with
    | fin b =>
      have hbpos := stepDirY_pos d b hy
      obtain ⟨ry, hry, hrylb⟩ := rayLenInitY_fin_lb p d tile ht b hy
      have hmuy : ((muTerm maxD (rayLenInitY p d tile)
          ((stepDirY d).scale tile) : ℕ) : ℚ) ≤ maxD / (b * tile) + 2 := by
        rw [hry, hy, FVal.scale]
        exact muTerm_le_bound maxD ry (b * tile) (mul_pos hbpos ht) hrylb hmax
      have hdivpos : 0 ≤ maxD / (tile * b) :=
        div_nonneg hmax (by positivity)
      have hyle : maxD / (b * tile) ≤ maxD / (tile * b) := by
        rw [mul_comm b tile]
      have hcast : ((castRaySteps p d m rows cols tile maxD : ℕ) : ℚ) ≤
          0 + ((muTerm maxD (rayLenInitY p d tile)
            ((stepDirY d).scale tile) : ℕ) : ℚ) + 1 := by
        rw [hmux] at hsteps
        exact_mod_cast hsteps
      linarith
    | inf =>
      exact absurd ⟨stepDirX_eq_inf hx, stepDirY_eq_inf hy⟩ hnd

/-! ## Axis-aligned scans (claim C5)

For direction `(1,0)` the vertical boundary distance is infinite, so
every iteration steps the horizontal axis; the committed distance on
entering column `k` is exactly `k * tile - origin.x`. -/

theorem px_lt_startCellX_add_one_mul (p : Vec2) (tile : ℚ)
    (ht : 0 < tile) : p.x < ((startCellX p tile : ℚ) + 1) * tile := by
  have h1 : p.x / tile < truncQ (p.x / tile) + 1 :=
    lt_truncQ_add_one (p.x / tile)
  rw [startCellX]
  calc p.x = (p.x / tile) * tile := by field_simp
    _ < ((truncQ (p.x / tile) : ℚ) + 1) * tile :=
        mul_lt_mul_of_pos_right h1 ht

theorem py_lt_startCellY_add_one_mul (p : Vec2) (tile : ℚ)
    (ht : 0 < tile) : p.y < ((startCellY p tile : ℚ) + 1) * tile := by
  have h1 : p.y / tile < truncQ (p.y / tile) + 1 :=
    lt_truncQ_add_one (p.y / tile)
  rw [startCellY]
  calc p.y = (p.y / tile) * tile := by field_simp
    _ < ((truncQ (p.y / tile) : ℚ) + 1) * tile :=
        mul_lt_mul_of_pos_right h1 ht

theorem ddaLoop_xscan (m : ℤ → ℤ → ℤ) (c : DDAConsts) (row cw : ℤ)
    (x0 : ℚ)
    (htile : 0 < c.tile)
    (hsdx : c.sdx = .fin 1)
    (hstepX : c.stepX = 1)
    (hrow0 : 0 ≤ row) (hrowlt : row < c.rows)
    (hcw0 : 0 ≤ cw) (hcwlt : cw < c.cols)
    (hwall : m row cw = 1)
    (hfree : ∀ k, k ≠ cw → m row k ≠ 1)
    (hmax : (cw : ℚ) * c.tile - x0 ≤ c.maxD) :
    ∀ (n : ℕ) (s : DDAState), s.hit = false → s.curY = row →
      s.rayLenY = .inf → s.curX < cw →
      s.rayLenX = .fin (((s.curX : ℚ) + 1) * c.tile - x0) →
      (∃ dq, s.dist = .fin dq ∧ dq < c.maxD) →
      (cw - s.curX).toNat ≤ n →
      (ddaLoop m c n s).hit = true ∧
        (ddaLoop m c n s).dist = .fin ((cw : ℚ) * c.tile - x0) := by
  intro n
  induction n with
  | zero =>
    intro s _ _ _ hlt _ _ hn
    omega
  | succ k ih =>
    intro s hhit hrowy hry hlt hrx hdq hn
    obtain ⟨dq, hdist, hdlt⟩ := hdq
    have hcond : ddaCond c s = true := by
      rw [ddaCond, hhit, hdist, FVal.blt_fin_fin, decide_eq_true hdlt]
      rfl
    rw [ddaLoop, if_pos hcond]
    have hblt : s.rayLenX.blt s.rayLenY = true := by
      rw [hrx, hry, FVal.blt_fin_inf]
    have hadv := ddaAdvance_of_blt (c := c) hblt
    by_cases hend : s.curX + 1 = cw
    · have hcheck := ddaCheck_cases m c (ddaAdvance c s)
      have hbnds : 0 ≤ (ddaAdvance c s).curX ∧
          (ddaAdvance c s).curX < c.cols ∧
          0 ≤ (ddaAdvance c s).curY ∧ (ddaAdvance c s).curY < c.rows := by
        rw [hadv]
        dsimp only
        rw [hrowy, hstepX]
        omega
      have hwcell : m (ddaAdvance c s).curY (ddaAdvance c s).curX = 1 := by
        rw [hadv]
        dsimp only
        rw [hrowy, hstepX, hend]
        exact hwall
      rcases hcheck with ⟨-, hno⟩ | ⟨he, -⟩
      · exact absurd ⟨hbnds, hwcell⟩ hno
      · rw [ddaStep, he, ddaLoop_exit]
        · constructor
          · rfl
          · show (ddaAdvance c s).dist = _
            rw [hadv]
            dsimp only
            rw [hrx]
            congr 1
            have : ((s.curX : ℚ) + 1) = (cw : ℚ) := by
              exact_mod_cast hend
            rw [this]
        · rw [ddaCond]
          simp
    · have hlt1 : s.curX + 1 < cw := by omega
      have hnowall : m (ddaAdvance c s).curY (ddaAdvance c s).curX ≠ 1 := by
        rw [hadv]
        dsimp only
        rw [hrowy, hstepX]
        exact hfree (s.curX + 1) (by omega)
      have hstepeq : ddaStep m c s = ddaAdvance c s := by
        rw [ddaStep]
        rcases ddaCheck_cases m c (ddaAdvance c s) with ⟨he, -⟩ | ⟨-, -, hw⟩
        · exact he
        · exact absurd hw hnowall
      rw [hstepeq]
      apply ih
      · rw [hadv]; dsimp only; exact hhit
      · rw [hadv]; dsimp only; exact hrowy
      · rw [hadv]; dsimp only; exact hry
      · rw [hadv]; dsimp only; rw [hstepX]; omega
      · rw [hadv]
        dsimp only
        rw [hrx, hsdx, hstepX]
        simp only [FVal.scale, FVal.add, FVal.fin.injEq]
        push_cast
        ring
      · rw [hadv]
        dsimp only
        rw [hrx]
        refine ⟨((s.curX : ℚ) + 1) * c.tile - x0, rfl, ?_⟩
        have hc1 : ((s.curX : ℚ) + 1) ≤ (cw : ℚ) - 1 := by
          exact_mod_cast by omega
        nlinarith
      · rw [hadv]; dsimp only; rw [hstepX]; omega

theorem stepDirX_unitX : stepDirX ⟨1, 0⟩ = .fin 1 := by
  rw [stepDirX]
  norm_num

theorem stepDirY_unitX : stepDirY ⟨1, 0⟩ = .inf := by
  rw [stepDirY, if_pos rfl]

theorem stepIntX_unitX : stepIntX ⟨1, 0⟩ = 1 := by
  rw [stepIntX]
  norm_num

theorem rayLenInitX_unitX (p : Vec2) (tile : ℚ) :
    rayLenInitX p ⟨1, 0⟩ tile =
      .fin (((startCellX p tile : ℚ) + 1) * tile - p.x) := by
  rw [rayLenInitX, if_neg (by rw [stepIntX_unitX]; omega), stepDirX_unitX]
  simp only [FVal.smul, FVal.fin.injEq]
  ring

/-- The horizontal axis-aligned case of claim C5: for direction
`(1,0)`, a single occupied cell at `(row, cw)` in the starting row,
ahead of the starting column and within the distance budget, is
reported at exactly the distance to its left edge. -/
theorem castRayDDA_axisX (p : Vec2) (m : ℤ → ℤ → ℤ) (rows cols : ℤ)
    (tile maxD : ℚ) (cw : ℤ)
    (ht : 0 < tile)
    (hrow0 : 0 ≤ startCellY p tile) (hrowlt : startCellY p tile < rows)
    (hcw0 : 0 ≤ cw) (hcwlt : cw < cols)
    (hahead : startCellX p tile < cw)
    (hwall : m (startCellY p tile) cw = 1)
    (hfree : ∀ k, k ≠ cw → m (startCellY p tile) k ≠ 1)
    (hmax : (cw : ℚ) * tile - p.x ≤ maxD) :
    castRayDDA p ⟨1, 0⟩ m rows cols tile maxD =
      .fin ((cw : ℚ) * tile - p.x) := by
  have hpx := px_lt_startCellX_add_one_mul p tile ht
  have hcur1 : ((startCellX p tile : ℚ) + 1) ≤ (cw : ℚ) := by
    exact_mod_cast hahead
  have hmaxpos : 0 < maxD := by nlinarith
  have hfinal : (castRayRun p ⟨1, 0⟩ m rows cols tile maxD).hit = true ∧
      (castRayRun p ⟨1, 0⟩ m rows cols tile maxD).dist =
        .fin ((cw : ℚ) * tile - p.x) := by
    rw [castRayRun]
    apply ddaLoop_xscan m (mkDDAConsts ⟨1, 0⟩ rows cols tile maxD)
      (startCellY p tile) cw p.x ht stepDirX_unitX stepIntX_unitX
      hrow0 hrowlt hcw0 hcwlt hwall hfree hmax
    · rfl
    · rfl
    · exact rayLenInitY_inf p ⟨1, 0⟩ tile stepDirY_unitX
    · exact hahead
    · exact rayLenInitX_unitX p tile
    · exact ⟨0, rfl, hmaxpos⟩
    · show (cw - startCellX p tile).toNat ≤
        ddaFuel (mkDDAConsts ⟨1, 0⟩ rows cols tile maxD)
          (ddaInitState p ⟨1, 0⟩ tile)
      rw [ddaFuel]
      have hmuy : muTerm
          ((mkDDAConsts ⟨1, 0⟩ rows cols tile maxD).maxD)
          ((ddaInitState p ⟨1, 0⟩ tile).rayLenY)
          (((mkDDAConsts ⟨1, 0⟩ rows cols tile maxD).sdy).scale
            ((mkDDAConsts ⟨1, 0⟩ rows cols tile maxD).tile)) = 0 := by
        show muTerm maxD (rayLenInitY p ⟨1, 0⟩ tile) _ = 0
        rw [rayLenInitY_inf p ⟨1, 0⟩ tile stepDirY_unitX]
        rfl
      rw [hmuy]
      have hmux : muTerm
          ((mkDDAConsts ⟨1, 0⟩ rows cols tile maxD).maxD)
          ((ddaInitState p ⟨1, 0⟩ tile).rayLenX)
          (((mkDDAConsts ⟨1, 0⟩ rows cols tile maxD).sdx).scale
            ((mkDDAConsts ⟨1, 0⟩ rows cols tile maxD).tile)) =
          (⌈(maxD - (((startCellX p tile : ℚ) + 1) * tile - p.x)) /
            (1 * tile)⌉).toNat := by
        show muTerm maxD (rayLenInitX p ⟨1, 0⟩ tile)
          ((stepDirX ⟨1, 0⟩).scale tile) = _
        rw [rayLenInitX_unitX p tile, stepDirX_unitX]
        rfl
      rw [hmux]
      have hz : ((cw - startCellX p tile - 1 : ℤ) : ℚ) ≤
          (maxD - (((startCellX p tile : ℚ) + 1) * tile - p.x)) /
            (1 * tile) := by
        rw [le_div_iff₀ (by linarith : (0 : ℚ) < 1 * tile)]
        push_cast
        nlinarith
      have hceil : (cw - startCellX p tile - 1 : ℤ) ≤
          ⌈(maxD - (((startCellX p tile : ℚ) + 1) * tile - p.x)) /
            (1 * tile)⌉ := by
        exact_mod_cast le_trans hz (Int.le_ceil _)
      omega
  rw [castRayDDA, if_pos hfinal.1, hfinal.2]

theorem ddaLoop_yscan (m : ℤ → ℤ → ℤ) (c : DDAConsts) (col rw : ℤ)
    (y0 : ℚ)
    (htile : 0 < c.tile)
    (hsdy : c.sdy = .fin 1)
    (hstepY : c.stepY = 1)
    (hcol0 : 0 ≤ col) (hcollt : col < c.cols)
    (hrw0 : 0 ≤ rw) (hrwlt : rw < c.rows)
    (hwall : m rw col = 1)
    (hfree : ∀ k, k ≠ rw → m k col ≠ 1)
    (hmax : (rw : ℚ) * c.tile - y0 ≤ c.maxD) :
    ∀ (n : ℕ) (s : DDAState), s.hit = false → s.curX = col →
      s.rayLenX = .inf → s.curY < rw →
      s.rayLenY = .fin (((s.curY : ℚ) + 1) * c.tile - y0) →
      (∃ dq, s.dist = .fin dq ∧ dq < c.maxD) →
      (rw - s.curY).toNat ≤ n →
      (ddaLoop m c n s).hit = true ∧
        (ddaLoop m c n s).dist = .fin ((rw : ℚ) * c.tile - y0) := by
  intro n
  induction n with
  | zero =>
    intro s _ _ _ hlt _ _ hn
    omega
  | succ k ih =>
    intro s hhit hcolx hrxinf hlt hry hdq hn
    obtain ⟨dq, hdist, hdlt⟩ := hdq
    have hcond : ddaCond c s = true := by
      rw [ddaCond, hhit, hdist, FVal.blt_fin_fin, decide_eq_true hdlt]
      rfl
    rw [ddaLoop, if_pos hcond]
    have hblt : s.rayLenX.blt s.rayLenY = false := by
      rw [hrxinf, FVal.blt_inf_left]
    have hadv := ddaAdvance_of_not_blt (c := c) hblt
    by_cases hend : s.curY + 1 = rw
    · have hcheck := ddaCheck_cases m c (ddaAdvance c s)
      have hbnds : 0 ≤ (ddaAdvance c s).curX ∧
          (ddaAdvance c s).curX < c.cols ∧
          0 ≤ (ddaAdvance c s).curY ∧ (ddaAdvance c s).curY < c.rows := by
        rw [hadv]
        dsimp only
        rw [hcolx, hstepY]
        omega
      have hwcell : m (ddaAdvance c s).curY (ddaAdvance c s).curX = 1 := by
        rw [hadv]
        dsimp only
        rw [hcolx, hstepY, hend]
        exact hwall
      rcases hcheck with ⟨-, hno⟩ | ⟨he, -⟩
      · exact absurd ⟨hbnds, hwcell⟩ hno
      · rw [ddaStep, he, ddaLoop_exit]
        · constructor
          · rfl
          · show (ddaAdvance c s).dist = _
            rw [hadv]
            dsimp only
            rw [hry]
            congr 1
            have : ((s.curY : ℚ) + 1) = (rw : ℚ) := by
              exact_mod_cast hend
            rw [this]
        · rw [ddaCond]
          simp
    · have hlt1 : s.curY + 1 < rw := by omega
      have hnowall : m (ddaAdvance c s).curY (ddaAdvance c s).curX ≠ 1 := by
        rw [hadv]
        dsimp only
        rw [hcolx, hstepY]
        exact hfree (s.curY + 1) (by omega)
      have hstepeq : ddaStep m c s = ddaAdvance c s := by
        rw [ddaStep]
        rcases ddaCheck_cases m c (ddaAdvance c s) with ⟨he, -⟩ | ⟨-, -, hw⟩
        · exact he
        · exact absurd hw hnowall
      rw [hstepeq]
      apply ih
      · rw [hadv]; dsimp only; exact hhit
      · rw [hadv]; dsimp only; exact hcolx
      · rw [hadv]; dsimp only; exact hrxinf
      · rw [hadv]; dsimp only; rw [hstepY]; omega
      · rw [hadv]
        dsimp only
        rw [hry, hsdy, hstepY]
        simp only [FVal.scale, FVal.add, FVal.fin.injEq]
        push_cast
        ring
      · rw [hadv]
        dsimp only
        rw [hry]
        refine ⟨((s.curY : ℚ) + 1) * c.tile - y0, rfl, ?_⟩
        have hc1 : ((s.curY : ℚ) + 1) ≤ (rw : ℚ) - 1 := by
          exact_mod_cast by omega
        nlinarith
      · rw [hadv]; dsimp only; rw [hstepY]; omega

theorem stepDirY_unitY : stepDirY ⟨0, 1⟩ = .fin 1 := by
  rw [stepDirY]
  norm_num

theorem stepDirX_unitY : stepDirX ⟨0, 1⟩ = .inf := by
  rw [stepDirX, if_pos rfl]

theorem stepIntY_unitY : stepIntY ⟨0, 1⟩ = 1 := by
  rw [stepIntY]
  norm_num

theorem rayLenInitY_unitY (p : Vec2) (tile : ℚ) :
    rayLenInitY p ⟨0, 1⟩ tile =
      .fin (((startCellY p tile : ℚ) + 1) * tile - p.y) := by
  rw [rayLenInitY, if_neg (by rw [stepIntY_unitY]; omega), stepDirY_unitY]
  simp only [FVal.smul, FVal.fin.injEq]
  ring

/-- The vertical axis-aligned case of claim C5: for direction `(0,1)`,
a single occupied cell at `(rw, col)` in the starting column, ahead of
the starting row and within the distance budget, is reported at
exactly the distance to its top edge. -/
theorem castRayDDA_axisY (p : Vec2) (m : ℤ → ℤ → ℤ) (rows cols : ℤ)
    (tile maxD : ℚ) (rw : ℤ)
    (ht : 0 < tile)
    (hcol0 : 0 ≤ startCellX p tile) (hcollt : startCellX p tile < cols)
    (hrw0 : 0 ≤ rw) (hrwlt : rw < rows)
    (hahead : startCellY p tile < rw)
    (hwall : m rw (startCellX p tile) = 1)
    (hfree : ∀ k, k ≠ rw → m k (startCellX p tile) ≠ 1)
    (hmax : (rw : ℚ) * tile - p.y ≤ maxD) :
    castRayDDA p ⟨0, 1⟩ m rows cols tile maxD =
      .fin ((rw : ℚ) * tile - p.y) := by
  have hpy := py_lt_startCellY_add_one_mul p tile ht
  have hcur1 : ((startCellY p tile : ℚ) + 1) ≤ (rw : ℚ) := by
    exact_mod_cast hahead
  have hmaxpos : 0 < maxD := by nlinarith
  have hfinal : (castRayRun p ⟨0, 1⟩ m rows cols tile maxD).hit = true ∧
      (castRayRun p ⟨0, 1⟩ m rows cols tile maxD).dist =
        .fin ((rw : ℚ) * tile - p.y) := by
    rw [castRayRun]
    apply ddaLoop_yscan m (mkDDAConsts ⟨0, 1⟩ rows cols tile maxD)
      (startCellX p tile) rw p.y ht stepDirY_unitY stepIntY_unitY
      hcol0 hcollt hrw0 hrwlt hwall hfree hmax
    · rfl
    · rfl
    · exact rayLenInitX_inf p ⟨0, 1⟩ tile stepDirX_unitY
    · exact hahead
    · exact rayLenInitY_unitY p tile
    · exact ⟨0, rfl, hmaxpos⟩
    · show (rw - startCellY p tile).toNat ≤
        ddaFuel (mkDDAConsts ⟨0, 1⟩ rows cols tile maxD)
          (ddaInitState p ⟨0, 1⟩ tile)
      rw [ddaFuel]
      have hmux : muTerm
          ((mkDDAConsts ⟨0, 1⟩ rows cols tile maxD).maxD)
          ((ddaInitState p ⟨0, 1⟩ tile).rayLenX)
          (((mkDDAConsts ⟨0, 1⟩ rows cols tile maxD).sdx).scale
            ((mkDDAConsts ⟨0, 1⟩ rows cols tile maxD).tile)) = 0 := by
        show muTerm maxD (rayLenInitX p ⟨0, 1⟩ tile) _ = 0
        rw [rayLenInitX_inf p ⟨0, 1⟩ tile stepDirX_unitY]
        rfl
      rw [hmux]
      have hmuy : muTerm
          ((mkDDAConsts ⟨0, 1⟩ rows cols tile maxD).maxD)
          ((ddaInitState p ⟨0, 1⟩ tile).rayLenY)
          (((mkDDAConsts ⟨0, 1⟩ rows cols tile maxD).sdy).scale
            ((mkDDAConsts ⟨0, 1⟩ rows cols tile maxD).tile)) =
          (⌈(maxD - (((startCellY p tile : ℚ) + 1) * tile - p.y)) /
            (1 * tile)⌉).toNat := by
        show muTerm maxD (rayLenInitY p ⟨0, 1⟩ tile)
          ((stepDirY ⟨0, 1⟩).scale tile) = _
        rw [rayLenInitY_unitY p tile, stepDirY_unitY]
        rfl
      rw [hmuy]
      have hz : ((rw - startCellY p tile - 1 : ℤ) : ℚ) ≤
          (maxD - (((startCellY p tile : ℚ) + 1) * tile - p.y)) /
            (1 * tile) := by
        rw [le_div_iff₀ (by linarith : (0 : ℚ) < 1 * tile)]
        push_cast
        nlinarith
      have hceil : (rw - startCellY p tile - 1 : ℤ) ≤
          ⌈(maxD - (((startCellY p tile : ℚ) + 1) * tile - p.y)) /
            (1 * tile)⌉ := by
        exact_mod_cast le_trans hz (Int.le_ceil _)
      omega
  rw [castRayDDA, if_pos hfinal.1, hfinal.2]

/-! ## The tie-break branch is invisible on tie-free runs (claim C3) -/

theorem ddaLoop_tieFree_eq (m : ℤ → ℤ → ℤ) (c : DDAConsts) :
    ∀ (n : ℕ) (s : DDAState), tieFreeLoop m c n s = true →
      ddaLoop m c n s = ddaLoopFlipTie m c n s := by
  intro n
  induction n with
  | zero => intro s _; rfl
  | succ k ih =>
    intro s htf
    rw [tieFreeLoop] at htf
    rw [ddaLoop, ddaLoopFlipTie]
    by_cases hc : ddaCond c s = true
    · rw [if_pos hc] at htf
      rw [if_pos hc, if_pos hc]
      obtain ⟨h1, h2⟩ := Bool.and_eq_true_iff.mp htf
      have hne : s.rayLenX ≠ s.rayLenY := by
        intro hcontra
        rw [hcontra] at h1
        simp at h1
      have hsame : ddaStepFlipTie m c s = ddaStep m c s := by
        rw [ddaStepFlipTie, ddaStep, ddaAdvance,
          FVal.blt_eq_ble_of_ne hne]
      rw [hsame]
      exact ih _ h2
    · rw [if_neg hc, if_neg hc]

/-! ## Closed form of the dashed-segment loop (claims C9, C10) -/

theorem dottedLoop_closed (dir : Vec2) (len : ℚ) :
    ∀ (k i : ℕ) (sp : Vec2),
      dottedLoop dir len k i sp =
        ((List.range k).filter (fun j : ℕ => (i + j) % 2 = 0)).map
          (fun j : ℕ =>
            ((⟨sp.x + dir.x * len * ((j : ℚ) + 1),
               sp.y + dir.y * len * ((j : ℚ) + 1)⟩ : Vec2),
             (⟨sp.x + dir.x * len * ((j : ℚ) + 2),
               sp.y + dir.y * len * ((j : ℚ) + 2)⟩ : Vec2))) := by
  intro k
  induction k with
  | zero => intro i sp; rfl
  | succ n ih =>
    intro i sp
    rw [List.range_succ_eq_map, List.filter_cons]
    rw [dottedLoop]
    rw [ih (i + 1) ⟨sp.x + dir.x * len, sp.y + dir.y * len⟩]
    have hfc : (List.range n).filter
        ((fun j : ℕ => decide ((i + j) % 2 = 0)) ∘ Nat.succ) =
        (List.range n).filter (fun j : ℕ => decide ((i + 1 + j) % 2 = 0)) := by
      apply List.filter_congr
      intro a _
      simp only [Function.comp_apply, decide_eq_decide]
      omega
    by_cases hp : i % 2 = 0
    · rw [if_pos hp, if_pos (by simpa using hp)]
      rw [List.map_cons, List.filter_map, hfc, List.map_map]
      congr 1
      · dsimp only
        simp only [Prod.mk.injEq, Vec2.mk.injEq]
        norm_num
        refine ⟨?_, ?_⟩ <;> ring
      · apply List.map_congr_left
        intro j hj
        dsimp only [Function.comp_apply]
        simp only [Prod.mk.injEq, Vec2.mk.injEq]
        refine ⟨⟨?_, ?_⟩, ?_, ?_⟩ <;> push_cast <;> ring
    · rw [if_neg hp, if_neg (by simpa using hp)]
      rw [List.filter_map, hfc, List.map_map]
      apply List.map_congr_left
      intro j hj
      dsimp only [Function.comp_apply]
      simp only [Prod.mk.injEq, Vec2.mk.injEq]
      refine ⟨⟨?_, ?_⟩, ?_, ?_⟩ <;> push_cast <;> ring

/-- The even positions of `List.range n`, reindexed by halves: position
`2 * k` for `0 <= 2 * k < n`. -/
theorem filter_even_range_map {α : Type} (f : ℕ → α) (n : ℕ) :
    ((List.range n).filter (fun j : ℕ => j % 2 = 0)).map f =
      (List.range ((n + 1) / 2)).map (fun k : ℕ => f (2 * k)) := by
  induction n with
  | zero => rfl
  | succ m ih =>
    rw [List.range_succ, List.filter_append, List.map_append]
    by_cases hm : m % 2 = 0
    · have h1 : (m + 1 + 1) / 2 = (m + 1) / 2 + 1 := by omega
      rw [h1, List.range_succ, List.map_append, ← ih]
      congr 1
      have h2 : List.filter (fun j : ℕ => decide (j % 2 = 0)) [m] = [m] := by
        simp [hm]
      rw [h2]
      simp only [List.map_cons, List.map_nil, List.cons.injEq, and_true]
      congr 1
      omega
    · have h1 : (m + 1 + 1) / 2 = (m + 1) / 2 := by omega
      have h2 : List.filter (fun j : ℕ => decide (j % 2 = 0)) [m] = [] := by
        simp [hm]
      rw [h1, h2, ← ih]
      simp

/-! ## The initial boundary distances: finiteness and the negative
case (claim C1 assembly) -/

theorem rayLenInitX_fin (p d : Vec2) (tile : ℚ) (h : d.x ≠ 0) :
    ∃ r, rayLenInitX p d tile = .fin r := by
  rw [rayLenInitX, stepDirX, if_neg h]
  by_cases hs : stepIntX d = -1
  · rw [if_pos hs]; exact ⟨_, rfl⟩
  · rw [if_neg hs]; exact ⟨_, rfl⟩

theorem rayLenInitY_fin (p d : Vec2) (tile : ℚ) (h : d.y ≠ 0) :
    ∃ r, rayLenInitY p d tile = .fin r := by
  rw [rayLenInitY, stepDirY, if_neg h]
  by_cases hs : stepIntY d = -1
  · rw [if_pos hs]; exact ⟨_, rfl⟩
  · rw [if_neg hs]; exact ⟨_, rfl⟩

/-- A negative initial horizontal boundary distance forces a negative
step and an already-out-of-bounds destination column (the geometric
content of the no-negative-hit argument). -/
theorem rayLenInitX_neg_inv (p d : Vec2) (tile : ℚ) (ht : 0 < tile) :
    ∀ q, rayLenInitX p d tile = .fin q → q < 0 →
      stepIntX d = -1 ∧ startCellX p tile + stepIntX d < 0 := by
  intro q hq hqneg
  by_cases hdx : d.x = 0
  · rw [rayLenInitX, stepDirX, if_pos hdx] at hq
    rcases ite_eq_iff.mp hq with ⟨-, hc⟩ | ⟨-, hc⟩ <;>
      exact absurd hc.symm (by rw [FVal.smul]; simp)
  · have habs : 0 < 1 / |d.x| := by positivity
    rw [rayLenInitX, stepDirX, if_neg hdx] at hq
    by_cases hs : stepIntX d = -1
    · rw [if_pos hs] at hq
      rw [FVal.smul] at hq
      have hqv : (p.x - (startCellX p tile) * tile) * (1 / |d.x|) = q :=
        FVal.fin.inj hq
      have hfac : p.x - (startCellX p tile) * tile < 0 := by nlinarith
      have hcur : startCellX p tile ≤ 0 := by
        by_contra hcpos
        push_neg at hcpos
        have hcpos2 : 1 ≤ truncQ (p.x / tile) := by
          rw [startCellX] at hcpos; omega
        have h1 : (startCellX p tile : ℚ) ≤ p.x / tile := by
          rw [startCellX]
          exact truncQ_le_self_of_one_le hcpos2
        have h2 : (startCellX p tile : ℚ) * tile ≤ p.x := by
          rw [← div_mul_cancel₀ p.x (ne_of_gt ht)]
          exact mul_le_mul_of_nonneg_right h1 (le_of_lt ht)
        linarith
      exact ⟨hs, by omega⟩
    · rw [if_neg hs] at hq
      rw [FVal.smul] at hq
      have hqv : (((startCellX p tile) + 1) * tile - p.x) * (1 / |d.x|) = q :=
        FVal.fin.inj hq
      have hfac := px_lt_startCellX_add_one_mul p tile ht
      nlinarith

theorem rayLenInitY_neg_inv (p d : Vec2) (tile : ℚ) (ht : 0 < tile) :
    ∀ q, rayLenInitY p d tile = .fin q → q < 0 →
      stepIntY d = -1 ∧ startCellY p tile + stepIntY d < 0 := by
  intro q hq hqneg
  by_cases hdy : d.y = 0
  · rw [rayLenInitY, stepDirY, if_pos hdy] at hq
    rcases ite_eq_iff.mp hq with ⟨-, hc⟩ | ⟨-, hc⟩ <;>
      exact absurd hc.symm (by rw [FVal.smul]; simp)
  · have habs : 0 < 1 / |d.y| := by positivity
    rw [rayLenInitY, stepDirY, if_neg hdy] at hq
    by_cases hs : stepIntY d = -1
    · rw [if_pos hs] at hq
      rw [FVal.smul] at hq
      have hqv : (p.y - (startCellY p tile) * tile) * (1 / |d.y|) = q :=
        FVal.fin.inj hq
      have hfac : p.y - (startCellY p tile) * tile < 0 := by nlinarith
      have hcur : startCellY p tile ≤ 0 := by
        by_contra hcpos
        push_neg at hcpos
        have hcpos2 : 1 ≤ truncQ (p.y / tile) := by
          rw [startCellY] at hcpos; omega
        have h1 : (startCellY p tile : ℚ) ≤ p.y / tile := by
          rw [startCellY]
          exact truncQ_le_self_of_one_le hcpos2
        have h2 : (startCellY p tile : ℚ) * tile ≤ p.y := by
          rw [← div_mul_cancel₀ p.y (ne_of_gt ht)]
          exact mul_le_mul_of_nonneg_right h1 (le_of_lt ht)
        linarith
      exact ⟨hs, by omega⟩
    · rw [if_neg hs] at hq
      rw [FVal.smul] at hq
      have hqv : (((startCellY p tile) + 1) * tile - p.y) * (1 / |d.y|) = q :=
        FVal.fin.inj hq
      have hfac := py_lt_startCellY_add_one_mul p tile ht
      nlinarith

/-- `castRayDDA` never returns a negative or infinite value under the
contract preconditions. -/
theorem castRayDDA_nonneg (p d : Vec2) (m : ℤ → ℤ → ℤ) (rows cols : ℤ)
    (tile maxD : ℚ) (ht : 0 < tile) (hmax : 0 ≤ maxD)
    (hnd : ¬(d.x = 0 ∧ d.y = 0)) :
    ∃ q, castRayDDA p d m rows cols tile maxD = .fin q ∧ 0 ≤ q := by
  have hboth : ¬(rayLenInitX p d tile = .inf ∧
      rayLenInitY p d tile = .inf) := by
    intro hcontra
    rcases not_and_or.mp hnd with hdx | hdy
    · obtain ⟨r, hr⟩ := rayLenInitX_fin p d tile hdx
      rw [hr] at hcontra
      exact absurd hcontra.1 (by simp)
    · obtain ⟨r, hr⟩ := rayLenInitY_fin p d tile hdy
      rw [hr] at hcontra
      exact absurd hcontra.2 (by simp)
  have hfinal := ddaLoop_ray_inv m (mkDDAConsts d rows cols tile maxD)
    ht (fun q h => stepDirX_pos d q h) (fun q h => stepDirY_pos d q h)
    (ddaFuel (mkDDAConsts d rows cols tile maxD) (ddaInitState p d tile))
    (ddaInitState p d tile)
    (fun h => rayLenInitX_inf p d tile h)
    (fun h => rayLenInitY_inf p d tile h)
    hboth
    (fun q hq hneg => rayLenInitX_neg_inv p d tile ht q hq hneg)
    (fun q hq hneg => rayLenInitY_neg_inv p d tile ht q hq hneg)
    (fun hcontra => absurd hcontra (by rw [ddaInitState]; simp))
  rw [castRayDDA]
  by_cases hhit : (castRayRun p d m rows cols tile maxD).hit = true
  · rw [if_pos hhit]
    exact hfinal hhit
  · rw [if_neg hhit]
    exact ⟨maxD, rfl, hmax⟩

/-! ## A family of runs refuting the claimed iteration bound (claim C6)

For the unit direction `(3/5, 4/5)` from the origin on an empty
`0 x 0` grid with `tile = 1` and `maxDistance = 5 * N`, the traversal
crosses three vertical and four horizontal grid lines per distance 5
(the crossings repeat with period 5, the two distance-5 crossings
being an exact diagonal tie), so the loop runs `7 * N - 1` iterations
while `maxDistance / (tile * min(stepLen.x, stepLen.y)) = 4 * N`. -/

theorem ddaCheck_empty (m : ℤ → ℤ → ℤ) (c : DDAConsts) (s : DDAState)
    (hcols : c.cols = 0) : ddaCheck m c s = s := by
  rw [ddaCheck, if_neg]
  rintro ⟨h1, h2, -⟩
  omega

theorem ddaStep_x_explicit (m : ℤ → ℤ → ℤ) (c : DDAConsts)
    (hcols : c.cols = 0) (s : DDAState)
    (hb : s.rayLenX.blt s.rayLenY = true) :
    ddaStep m c s =
      { s with curX := s.curX + c.stepX, dist := s.rayLenX,
               rayLenX := s.rayLenX.add (c.sdx.scale c.tile),
               iters := s.iters + 1 } := by
  rw [ddaStep, ddaCheck_empty m c _ hcols, ddaAdvance_of_blt hb]

theorem ddaStep_y_explicit (m : ℤ → ℤ → ℤ) (c : DDAConsts)
    (hcols : c.cols = 0) (s : DDAState)
    (hb : s.rayLenX.blt s.rayLenY = false) :
    ddaStep m c s =
      { s with curY := s.curY + c.stepY, dist := s.rayLenY,
               rayLenY := s.rayLenY.add (c.sdy.scale c.tile),
               iters := s.iters + 1 } := by
  rw [ddaStep, ddaCheck_empty m c _ hcols, ddaAdvance_of_not_blt hb]

theorem ddaCond_of_parts {c : DDAConsts} {s : DDAState}
    (hhit : s.hit = false) {dq : ℚ} (hd : s.dist = .fin dq)
    (hlt : dq < c.maxD) : ddaCond c s = true := by
  rw [ddaCond, hhit, hd, FVal.blt_fin_fin, decide_eq_true hlt]
  rfl

theorem c6_sdx_scale (N : ℕ) :
    ((mkDDAConsts ⟨3/5, 4/5⟩ 0 0 1 (5 * (N : ℚ))).sdx).scale
      ((mkDDAConsts ⟨3/5, 4/5⟩ 0 0 1 (5 * (N : ℚ))).tile) = .fin (5/3) := by
  show (stepDirX ⟨3/5, 4/5⟩).scale 1 = _
  rw [stepDirX]
  norm_num [FVal.scale, FVal.fin.injEq,
    show |(3/5 : ℚ)| = 3/5 from by rw [abs_of_pos]; norm_num]

theorem c6_sdy_scale (N : ℕ) :
    ((mkDDAConsts ⟨3/5, 4/5⟩ 0 0 1 (5 * (N : ℚ))).sdy).scale
      ((mkDDAConsts ⟨3/5, 4/5⟩ 0 0 1 (5 * (N : ℚ))).tile) = .fin (5/4) := by
  show (stepDirY ⟨3/5, 4/5⟩).scale 1 = _
  rw [stepDirY]
  norm_num [FVal.scale, FVal.fin.injEq,
    show |(4/5 : ℚ)| = 4/5 from by rw [abs_of_pos]; norm_num]

theorem c6_stepX (N : ℕ) :
    (mkDDAConsts ⟨3/5, 4/5⟩ 0 0 1 (5 * (N : ℚ))).stepX = 1 := by
  show stepIntX ⟨3/5, 4/5⟩ = 1
  rw [stepIntX]
  norm_num

theorem c6_stepY (N : ℕ) :
    (mkDDAConsts ⟨3/5, 4/5⟩ 0 0 1 (5 * (N : ℚ))).stepY = 1 := by
  show stepIntY ⟨3/5, 4/5⟩ = 1
  rw [stepIntY]
  norm_num

theorem c6_maxD (N : ℕ) :
    (mkDDAConsts ⟨3/5, 4/5⟩ 0 0 1 (5 * (N : ℚ))).maxD = 5 * (N : ℚ) := rfl

/-- The first six iterations of one period of the diagonal family:
from committed distance `5 * j`, three horizontal-line crossings, two
vertical-line crossings, then the vertical half of the exact corner
tie at distance `5 * (j + 1)`. -/
theorem c6_sixsteps (N j : ℕ) (hjlt : 5 * (j : ℚ) + 5 ≤ 5 * (N : ℚ))
    (f : ℕ) :
    ddaLoop (fun _ _ => 0) (mkDDAConsts ⟨3/5, 4/5⟩ 0 0 1 (5 * (N : ℚ)))
      (f + 6)
      { curX := 3 * (j : ℤ), curY := 4 * (j : ℤ),
        rayLenX := .fin (5 * (j : ℚ) + 5/3),
        rayLenY := .fin (5 * (j : ℚ) + 5/4),
        dist := .fin (5 * (j : ℚ)), hit := false, iters := 7 * j } =
    ddaLoop (fun _ _ => 0) (mkDDAConsts ⟨3/5, 4/5⟩ 0 0 1 (5 * (N : ℚ))) f
      { curX := 3 * (j : ℤ) + 2, curY := 4 * (j : ℤ) + 4,
        rayLenX := .fin (5 * (j : ℚ) + 5),
        rayLenY := .fin (5 * (j : ℚ) + 25/4),
        dist := .fin (5 * (j : ℚ) + 5), hit := false,
        iters := 7 * j + 6 } := by
  set m0 : ℤ → ℤ → ℤ := fun _ _ => 0 with hm0
  set c : DDAConsts := mkDDAConsts ⟨3/5, 4/5⟩ 0 0 1 (5 * (N : ℚ)) with hc
  have hmax : c.maxD = 5 * (N : ℚ) := rfl
  have hsy : c.stepY = 1 := c6_stepY N
  have hsx : c.stepX = 1 := c6_stepX N
  have hiy : c.sdy.scale c.tile = .fin (5/4) := c6_sdy_scale N
  have hix : c.sdx.scale c.tile = .fin (5/3) := c6_sdx_scale N
  have hstep1 : ddaStep m0 c
      { curX := 3 * (j : ℤ), curY := 4 * (j : ℤ),
        rayLenX := .fin (5 * (j : ℚ) + 5/3),
        rayLenY := .fin (5 * (j : ℚ) + 5/4),
        dist := .fin (5 * (j : ℚ)), hit := false, iters := 7 * j } =
      { curX := 3 * (j : ℤ), curY := 4 * (j : ℤ) + 1,
        rayLenX := .fin (5 * (j : ℚ) + 5/3),
        rayLenY := .fin (5 * (j : ℚ) + 5/2),
        dist := .fin (5 * (j : ℚ) + 5/4), hit := false,
        iters := 7 * j + 1 } := by
    rw [ddaStep_y_explicit m0 c rfl _ (by
      rw [FVal.blt_fin_fin]
      exact decide_eq_false (not_lt.mpr (by linarith)))]
    dsimp only
    rw [hsy, hiy]
    simp only [FVal.add, DDAState.mk.injEq, FVal.fin.injEq]
    and_intros <;> first | rfl | ring_nf
  have hstep2 : ddaStep m0 c
      { curX := 3 * (j : ℤ), curY := 4 * (j : ℤ) + 1,
        rayLenX := .fin (5 * (j : ℚ) + 5/3),
        rayLenY := .fin (5 * (j : ℚ) + 5/2),
        dist := .fin (5 * (j : ℚ) + 5/4), hit := false,
        iters := 7 * j + 1 } =
      { curX := 3 * (j : ℤ) + 1, curY := 4 * (j : ℤ) + 1,
        rayLenX := .fin (5 * (j : ℚ) + 10/3),
        rayLenY := .fin (5 * (j : ℚ) + 5/2),
        dist := .fin (5 * (j : ℚ) + 5/3), hit := false,
        iters := 7 * j + 2 } := by
    rw [ddaStep_x_explicit m0 c rfl _ (by
      rw [FVal.blt_fin_fin]
      exact decide_eq_true (by linarith))]
    dsimp only
    rw [hsx, hix]
    simp only [FVal.add, DDAState.mk.injEq, FVal.fin.injEq]
    and_intros <;> first | rfl | ring_nf
  have hstep3 : ddaStep m0 c
      { curX := 3 * (j : ℤ) + 1, curY := 4 * (j : ℤ) + 1,
        rayLenX := .fin (5 * (j : ℚ) + 10/3),
        rayLenY := .fin (5 * (j : ℚ) + 5/2),
        dist := .fin (5 * (j : ℚ) + 5/3), hit := false,
        iters := 7 * j + 2 } =
      { curX := 3 * (j : ℤ) + 1, curY := 4 * (j : ℤ) + 2,
        rayLenX := .fin (5 * (j : ℚ) + 10/3),
        rayLenY := .fin (5 * (j : ℚ) + 15/4),
        dist := .fin (5 * (j : ℚ) + 5/2), hit := false,
        iters := 7 * j + 3 } := by
    rw [ddaStep_y_explicit m0 c rfl _ (by
      rw [FVal.blt_fin_fin]
      exact decide_eq_false (not_lt.mpr (by linarith)))]
    dsimp only
    rw [hsy, hiy]
    simp only [FVal.add, DDAState.mk.injEq, FVal.fin.injEq]
    and_intros <;> first | rfl | ring_nf
  have hstep4 : ddaStep m0 c
      { curX := 3 * (j : ℤ) + 1, curY := 4 * (j : ℤ) + 2,
        rayLenX := .fin (5 * (j : ℚ) + 10/3),
        rayLenY := .fin (5 * (j : ℚ) + 15/4),
        dist := .fin (5 * (j : ℚ) + 5/2), hit := false,
        iters := 7 * j + 3 } =
      { curX := 3 * (j : ℤ) + 2, curY := 4 * (j : ℤ) + 2,
        rayLenX := .fin (5 * (j : ℚ) + 5),
        rayLenY := .fin (5 * (j : ℚ) + 15/4),
        dist := .fin (5 * (j : ℚ) + 10/3), hit := false,
        iters := 7 * j + 4 } := by
    rw [ddaStep_x_explicit m0 c rfl _ (by
      rw [FVal.blt_fin_fin]
      exact decide_eq_true (by linarith))]
    dsimp only
    rw [hsx, hix]
    simp only [FVal.add, DDAState.mk.injEq, FVal.fin.injEq]
    and_intros <;> first | rfl | ring_nf
  have hstep5 : ddaStep m0 c
      { curX := 3 * (j : ℤ) + 2, curY := 4 * (j : ℤ) + 2,
        rayLenX := .fin (5 * (j : ℚ) + 5),
        rayLenY := .fin (5 * (j : ℚ) + 15/4),
        dist := .fin (5 * (j : ℚ) + 10/3), hit := false,
        iters := 7 * j + 4 } =
      { curX := 3 * (j : ℤ) + 2, curY := 4 * (j : ℤ) + 3,
        rayLenX := .fin (5 * (j : ℚ) + 5),
        rayLenY := .fin (5 * (j : ℚ) + 5),
        dist := .fin (5 * (j : ℚ) + 15/4), hit := false,
        iters := 7 * j + 5 } := by
    rw [ddaStep_y_explicit m0 c rfl _ (by
      rw [FVal.blt_fin_fin]
      exact decide_eq_false (not_lt.mpr (by linarith)))]
    dsimp only
    rw [hsy, hiy]
    simp only [FVal.add, DDAState.mk.injEq, FVal.fin.injEq]
    and_intros <;> first | rfl | ring_nf
  have hstep6 : ddaStep m0 c
      { curX := 3 * (j : ℤ) + 2, curY := 4 * (j : ℤ) + 3,
        rayLenX := .fin (5 * (j : ℚ) + 5),
        rayLenY := .fin (5 * (j : ℚ) + 5),
        dist := .fin (5 * (j : ℚ) + 15/4), hit := false,
        iters := 7 * j + 5 } =
      { curX := 3 * (j : ℤ) + 2, curY := 4 * (j : ℤ) + 4,
        rayLenX := .fin (5 * (j : ℚ) + 5),
        rayLenY := .fin (5 * (j : ℚ) + 25/4),
        dist := .fin (5 * (j : ℚ) + 5), hit := false,
        iters := 7 * j + 6 } := by
    rw [ddaStep_y_explicit m0 c rfl _ (by
      rw [FVal.blt_fin_fin]
      exact decide_eq_false (not_lt.mpr (by linarith)))]
    dsimp only
    rw [hsy, hiy]
    simp only [FVal.add, DDAState.mk.injEq, FVal.fin.injEq]
    and_intros <;> first | rfl | ring_nf
  calc ddaLoop m0 c (f + 6)
        { curX := 3 * (j : ℤ), curY := 4 * (j : ℤ),
          rayLenX := .fin (5 * (j : ℚ) + 5/3),
          rayLenY := .fin (5 * (j : ℚ) + 5/4),
          dist := .fin (5 * (j : ℚ)), hit := false, iters := 7 * j }
      = ddaLoop m0 c (f + 5)
        { curX := 3 * (j : ℤ), curY := 4 * (j : ℤ) + 1,
          rayLenX := .fin (5 * (j : ℚ) + 5/3),
          rayLenY := .fin (5 * (j : ℚ) + 5/2),
          dist := .fin (5 * (j : ℚ) + 5/4), hit := false,
          iters := 7 * j + 1 } := by
        rw [show f + 6 = (f + 5) + 1 from rfl, ddaLoop,
          if_pos (ddaCond_of_parts rfl rfl (by rw [hmax]; linarith)),
          hstep1]
    _ = ddaLoop m0 c (f + 4)
        { curX := 3 * (j : ℤ) + 1, curY := 4 * (j : ℤ) + 1,
          rayLenX := .fin (5 * (j : ℚ) + 10/3),
          rayLenY := .fin (5 * (j : ℚ) + 5/2),
          dist := .fin (5 * (j : ℚ) + 5/3), hit := false,
          iters := 7 * j + 2 } := by
        rw [show f + 5 = (f + 4) + 1 from rfl, ddaLoop,
          if_pos (ddaCond_of_parts rfl rfl (by rw [hmax]; linarith)),
          hstep2]
    _ = ddaLoop m0 c (f + 3)
        { curX := 3 * (j : ℤ) + 1, curY := 4 * (j : ℤ) + 2,
          rayLenX := .fin (5 * (j : ℚ) + 10/3),
          rayLenY := .fin (5 * (j : ℚ) + 15/4),
          dist := .fin (5 * (j : ℚ) + 5/2), hit := false,
          iters := 7 * j + 3 } := by
        rw [show f + 4 = (f + 3) + 1 from rfl, ddaLoop,
          if_pos (ddaCond_of_parts rfl rfl (by rw [hmax]; linarith)),
          hstep3]
    _ = ddaLoop m0 c (f + 2)
        { curX := 3 * (j : ℤ) + 2, curY := 4 * (j : ℤ) + 2,
          rayLenX := .fin (5 * (j : ℚ) + 5),
          rayLenY := .fin (5 * (j : ℚ) + 15/4),
          dist := .fin (5 * (j : ℚ) + 10/3), hit := false,
          iters := 7 * j + 4 } := by
        rw [show f + 3 = (f + 2) + 1 from rfl, ddaLoop,
          if_pos (ddaCond_of_parts rfl rfl (by rw [hmax]; linarith)),
          hstep4]
    _ = ddaLoop m0 c (f + 1)
        { curX := 3 * (j : ℤ) + 2, curY := 4 * (j : ℤ) + 3,
          rayLenX := .fin (5 * (j : ℚ) + 5),
          rayLenY := .fin (5 * (j : ℚ) + 5),
          dist := .fin (5 * (j : ℚ) + 15/4), hit := false,
          iters := 7 * j + 5 } := by
        rw [show f + 2 = (f + 1) + 1 from rfl, ddaLoop,
          if_pos (ddaCond_of_parts rfl rfl (by rw [hmax]; linarith)),
          hstep5]
    _ = ddaLoop m0 c f
        { curX := 3 * (j : ℤ) + 2, curY := 4 * (j : ℤ) + 4,
          rayLenX := .fin (5 * (j : ℚ) + 5),
          rayLenY := .fin (5 * (j : ℚ) + 25/4),
          dist := .fin (5 * (j : ℚ) + 5), hit := false,
          iters := 7 * j + 6 } := by
        rw [show f + 1 = f + 1 from rfl, ddaLoop,
          if_pos (ddaCond_of_parts rfl rfl (by rw [hmax]; linarith)),
          hstep6]

/-- The seventh iteration of a non-final period: the horizontal half
of the corner tie at distance `5 * (j + 1)`. -/
theorem c6_step7 (N j : ℕ) :
    ddaStep (fun _ _ => 0) (mkDDAConsts ⟨3/5, 4/5⟩ 0 0 1 (5 * (N : ℚ)))
      { curX := 3 * (j : ℤ) + 2, curY := 4 * (j : ℤ) + 4,
        rayLenX := .fin (5 * (j : ℚ) + 5),
        rayLenY := .fin (5 * (j : ℚ) + 25/4),
        dist := .fin (5 * (j : ℚ) + 5), hit := false,
        iters := 7 * j + 6 } =
      { curX := 3 * ((j : ℤ) + 1), curY := 4 * ((j : ℤ) + 1),
        rayLenX := .fin (5 * ((j : ℚ) + 1) + 5/3),
        rayLenY := .fin (5 * ((j : ℚ) + 1) + 5/4),
        dist := .fin (5 * ((j : ℚ) + 1)), hit := false,
        iters := 7 * (j + 1) } := by
  rw [ddaStep_x_explicit (fun _ _ => 0)
    (mkDDAConsts ⟨3/5, 4/5⟩ 0 0 1 (5 * (N : ℚ))) rfl _ (by
      rw [FVal.blt_fin_fin]
      exact decide_eq_true (by linarith))]
  dsimp only
  rw [c6_stepX N, c6_sdx_scale N]
  simp only [FVal.add, DDAState.mk.injEq, FVal.fin.injEq]
  and_intros <;> first | rfl | ring_nf

/-- A full period of the diagonal family: seven iterations advance the
canonical state at distance `5 * j` to the one at `5 * (j + 1)`. -/
theorem c6_period (N j : ℕ) (hjN : j + 1 < N) (f : ℕ) :
    ddaLoop (fun _ _ => 0) (mkDDAConsts ⟨3/5, 4/5⟩ 0 0 1 (5 * (N : ℚ)))
      (f + 7)
      { curX := 3 * (j : ℤ), curY := 4 * (j : ℤ),
        rayLenX := .fin (5 * (j : ℚ) + 5/3),
        rayLenY := .fin (5 * (j : ℚ) + 5/4),
        dist := .fin (5 * (j : ℚ)), hit := false, iters := 7 * j } =
    ddaLoop (fun _ _ => 0) (mkDDAConsts ⟨3/5, 4/5⟩ 0 0 1 (5 * (N : ℚ))) f
      { curX := 3 * ((j : ℤ) + 1), curY := 4 * ((j : ℤ) + 1),
        rayLenX := .fin (5 * ((j : ℚ) + 1) + 5/3),
        rayLenY := .fin (5 * ((j : ℚ) + 1) + 5/4),
        dist := .fin (5 * ((j : ℚ) + 1)), hit := false,
        iters := 7 * (j + 1) } := by
  have hjq : (j : ℚ) + 1 < (N : ℚ) := by exact_mod_cast hjN
  have hsix := c6_sixsteps N j (by linarith) (f + 1)
  rw [show f + 7 = (f + 1) + 6 from by omega] at *
  rw [hsix]
  rw [show f + 1 = f + 1 from rfl, ddaLoop,
    if_pos (ddaCond_of_parts rfl rfl (by
      rw [c6_maxD]
      linarith)),
    c6_step7 N j]

/-- The final partial period: six iterations reach committed distance
`5 * N` exactly, and the guard is then false, so any remaining fuel is
unused. -/
theorem c6_last (N j : ℕ) (hjN : j + 1 = N) (f : ℕ) :
    ddaLoop (fun _ _ => 0) (mkDDAConsts ⟨3/5, 4/5⟩ 0 0 1 (5 * (N : ℚ)))
      (f + 6)
      { curX := 3 * (j : ℤ), curY := 4 * (j : ℤ),
        rayLenX := .fin (5 * (j : ℚ) + 5/3),
        rayLenY := .fin (5 * (j : ℚ) + 5/4),
        dist := .fin (5 * (j : ℚ)), hit := false, iters := 7 * j } =
      { curX := 3 * (j : ℤ) + 2, curY := 4 * (j : ℤ) + 4,
        rayLenX := .fin (5 * (j : ℚ) + 5),
        rayLenY := .fin (5 * (j : ℚ) + 25/4),
        dist := .fin (5 * (j : ℚ) + 5), hit := false,
        iters := 7 * j + 6 } := by
  have hjq : (j : ℚ) + 1 = (N : ℚ) := by exact_mod_cast hjN
  rw [c6_sixsteps N j (by linarith) f]
  apply ddaLoop_exit
  rw [ddaCond]
  dsimp only
  rw [c6_maxD, FVal.blt_fin_fin, decide_eq_false (not_lt.mpr (by linarith))]
  rfl

theorem c6_tail (N : ℕ) :
    ∀ (k j f : ℕ), 1 ≤ k → j + k = N →
    (ddaLoop (fun _ _ => 0) (mkDDAConsts ⟨3/5, 4/5⟩ 0 0 1 (5 * (N : ℚ)))
      (f + (7 * k - 1))
      { curX := 3 * (j : ℤ), curY := 4 * (j : ℤ),
        rayLenX := .fin (5 * (j : ℚ) + 5/3),
        rayLenY := .fin (5 * (j : ℚ) + 5/4),
        dist := .fin (5 * (j : ℚ)), hit := false,
        iters := 7 * j }).iters = 7 * N - 1 := by
  intro k
  induction k with
  | zero => intro j f h1 _; omega
  | succ kk ih =>
    intro j f h1 hjk
    by_cases hk0 : kk = 0
    · subst hk0
      rw [show f + (7 * (0 + 1) - 1) = f + 6 from by omega]
      rw [c6_last N j (by omega) f]
      show 7 * j + 6 = 7 * N - 1
      omega
    · have hkk : 1 ≤ kk := by omega
      rw [show f + (7 * (kk + 1) - 1) = (f + (7 * kk - 1)) + 7 from by
        omega]
      rw [c6_period N j (by omega) (f + (7 * kk - 1))]
      have hstate : ({ curX := 3 * ((j : ℤ) + 1),
                       curY := 4 * ((j : ℤ) + 1),
                       rayLenX := .fin (5 * ((j : ℚ) + 1) + 5/3),
                       rayLenY := .fin (5 * ((j : ℚ) + 1) + 5/4),
                       dist := .fin (5 * ((j : ℚ) + 1)),
                       hit := false,
                       iters := 7 * (j + 1) } : DDAState) =
          ({ curX := 3 * ((j + 1 : ℕ) : ℤ),
             curY := 4 * ((j + 1 : ℕ) : ℤ),
             rayLenX := .fin (5 * ((j + 1 : ℕ) : ℚ) + 5/3),
             rayLenY := .fin (5 * ((j + 1 : ℕ) : ℚ) + 5/4),
             dist := .fin (5 * ((j + 1 : ℕ) : ℚ)),
             hit := false,
             iters := 7 * (j + 1) } : DDAState) := by
        simp only [DDAState.mk.injEq, FVal.fin.injEq]
        and_intros <;> first | rfl | (push_cast <;> ring)
      rw [hstate]
      exact ih (j + 1) f hkk (by omega)

/-- The iteration count of the diagonal family is `7 * N - 1`. -/
theorem c6_steps (N : ℕ) (hN : 1 ≤ N) :
    castRaySteps ⟨0, 0⟩ ⟨3/5, 4/5⟩ (fun _ _ => 0) 0 0 1 (5 * (N : ℚ)) =
      7 * N - 1 := by
  have hr0x : rayLenInitX ⟨0, 0⟩ ⟨3/5, 4/5⟩ 1 = .fin (5/3) := by
    rw [rayLenInitX, if_neg (by rw [stepIntX]; norm_num), stepDirX]
    norm_num [FVal.smul, FVal.fin.injEq, startCellX, truncQ,
      show |(3/5 : ℚ)| = 3/5 from by rw [abs_of_pos]; norm_num]
  have hr0y : rayLenInitY ⟨0, 0⟩ ⟨3/5, 4/5⟩ 1 = .fin (5/4) := by
    rw [rayLenInitY, if_neg (by rw [stepIntY]; norm_num), stepDirY]
    norm_num [FVal.smul, FVal.fin.injEq, startCellY, truncQ,
      show |(4/5 : ℚ)| = 4/5 from by rw [abs_of_pos]; norm_num]
  have hmux : muTerm (5 * (N : ℚ)) (.fin (5/3)) (.fin (5/3)) =
      (3 * (N : ℤ) - 1).toNat := by
    rw [muTerm]
    have hquot : (5 * (N : ℚ) - 5/3) / (5/3) = 3 * (N : ℚ) - 1 := by
      field_simp
      ring
    rw [hquot, show 3 * (N : ℚ) - 1 = ((3 * (N : ℤ) - 1 : ℤ) : ℚ) from by
      push_cast; ring, Int.ceil_intCast]
  have hmuy : muTerm (5 * (N : ℚ)) (.fin (5/4)) (.fin (5/4)) =
      (4 * (N : ℤ) - 1).toNat := by
    rw [muTerm]
    have hquot : (5 * (N : ℚ) - 5/4) / (5/4) = 4 * (N : ℚ) - 1 := by
      field_simp
      ring
    rw [hquot, show 4 * (N : ℚ) - 1 = ((4 * (N : ℤ) - 1 : ℤ) : ℚ) from by
      push_cast; ring, Int.ceil_intCast]
  have hfuel : ddaFuel (mkDDAConsts ⟨3/5, 4/5⟩ 0 0 1 (5 * (N : ℚ)))
      (ddaInitState ⟨0, 0⟩ ⟨3/5, 4/5⟩ 1) = 1 + (7 * N - 1) := by
    rw [ddaFuel]
    simp only [ddaInitState]
    rw [hr0x, hr0y, c6_sdx_scale N, c6_sdy_scale N, c6_maxD N, hmux, hmuy]
    omega
  have hinit : ddaInitState ⟨0, 0⟩ ⟨3/5, 4/5⟩ 1 =
      { curX := 3 * ((0 : ℕ) : ℤ), curY := 4 * ((0 : ℕ) : ℤ),
        rayLenX := .fin (5 * ((0 : ℕ) : ℚ) + 5/3),
        rayLenY := .fin (5 * ((0 : ℕ) : ℚ) + 5/4),
        dist := .fin (5 * ((0 : ℕ) : ℚ)), hit := false,
        iters := 7 * 0 } := by
    rw [ddaInitState]
    simp only [DDAState.mk.injEq, FVal.fin.injEq]
    rw [hr0x, hr0y]
    simp only [FVal.fin.injEq]
    norm_num [startCellX, startCellY, truncQ]
  rw [castRaySteps, castRayRun, hfuel, hinit]
  exact c6_tail N N 0 1 hN (by omega)

theorem castRayDDA_tieFree (p d : Vec2) (m : ℤ → ℤ → ℤ) (rows cols : ℤ)
    (tile maxD : ℚ)
    (htf : tieFreeLoop m (mkDDAConsts d rows cols tile maxD)
      (ddaFuel (mkDDAConsts d rows cols tile maxD) (ddaInitState p d tile))
      (ddaInitState p d tile) = true) :
    castRayDDA p d m rows cols tile maxD =
      castRayDDAFlipTie p d m rows cols tile maxD := by
  rw [castRayDDA, castRayDDAFlipTie, castRayRun, castRayRunFlipTie,
    ← ddaLoop_tieFree_eq m (mkDDAConsts d rows cols tile maxD) _ _ htf]

/-! ## The claims -/

/-- Claim C1, counterexample: with `cellSize = 20 > 0`,
`maxDistance = 10 >= 0` and the normalized direction `(1, 0)`, a wall
in the cell entered by the step that crosses the distance budget makes
`castRayDDA` return 15, which exceeds `maxDistance = 10`: the returned
value does not lie in `[0, maxDistance]`. -/
theorem claim_C1_counterexample :
    (0 : ℚ) < 20 ∧ (0 : ℚ) ≤ 10 ∧
    ((1 : ℚ)^2 + (0 : ℚ)^2 = 1) ∧ ¬((1 : ℚ) = 0 ∧ (0 : ℚ) = 0) ∧
    castRayDDA ⟨5, 5⟩ ⟨1, 0⟩ (fun r c => if r = 0 ∧ c = 1 then 1 else 0)
      1 2 20 10 = .fin 15 ∧
    ¬((15 : ℚ) ≤ 10) := by
  refine ⟨by norm_num, by norm_num, by norm_num, by norm_num, ?_, by norm_num⟩
  norm_num [castRayDDA, castRayRun, ddaInitState, mkDDAConsts, ddaFuel,
    muTerm, rayLenInitX, rayLenInitY, startCellX, startCellY, stepDirX,
    stepDirY, stepIntX, stepIntY, truncQ, ddaLoop, ddaCond, ddaStep,
    ddaAdvance, ddaCheck, FVal.blt, FVal.add, FVal.scale, FVal.smul]

/-- Claim C1, amended: under the preconditions the returned value is a
finite rational and is at least 0, and equals `maxDistance` whenever no
wall is hit; but a wall hit on the step that crosses the distance
budget is returned unclamped, so the returned value can exceed
`maxDistance` (see the counterexample). -/
theorem claim_C1_amended (p d : Vec2) (m : ℤ → ℤ → ℤ) (rows cols : ℤ)
    (tile maxD : ℚ) (ht : 0 < tile) (hmax : 0 ≤ maxD)
    (_hunit : d.x ^ 2 + d.y ^ 2 = 1) (hnd : ¬(d.x = 0 ∧ d.y = 0)) :
    ∃ q, castRayDDA p d m rows cols tile maxD = .fin q ∧ 0 ≤ q := by
  exact castRayDDA_nonneg p d m rows cols tile maxD ht hmax hnd

/-- Claim C1, witness: the amended theorem applied at a concrete
input. -/
theorem claim_C1_witness :
    ∃ q, castRayDDA ⟨5, 5⟩ ⟨1, 0⟩
      (fun r c => if r = 0 ∧ c = 1 then 1 else 0) 1 2 20 10 = .fin q ∧
      0 ≤ q := by
  exact claim_C1_amended ⟨5, 5⟩ ⟨1, 0⟩
    (fun r c => if r = 0 ∧ c = 1 then 1 else 0) 1 2 20 10
    (by norm_num) (by norm_num) (by norm_num) (by norm_num)

/-- Claim C2, counterexample: for the origin `(-5, 0)` and
`cellSize = 20`, the code computes starting column
`(int)(-5 / 20) = 0` (truncation toward zero), while
`floor(-5 / 20) = -1`: the starting cell indices are not the floor of
the coordinate over the cell size when a coordinate is negative. -/
theorem claim_C2_counterexample :
    (0 : ℚ) < 20 ∧
    ¬(startCellX ⟨-5, 0⟩ 20 = ⌊((-5 : ℚ)) / 20⌋) := by
  constructor
  · norm_num
  · norm_num [startCellX, truncQ]

/-- Claim C2, amended: the starting cell indices are the coordinates
divided by `cellSize` rounded toward zero: this is
`floor(origin / cellSize)` whenever the coordinate is nonnegative (so
an exact grid-line coordinate belongs to the cell with the larger
coordinate), but for a negative coordinate it is the ceiling, which is
one more than the floor at every negative non-multiple of
`cellSize`. -/
theorem claim_C2_amended (p : Vec2) (tile : ℚ) (ht : 0 < tile) :
    ((0 ≤ p.x → startCellX p tile = ⌊p.x / tile⌋) ∧
      (p.x < 0 → startCellX p tile = ⌈p.x / tile⌉)) ∧
    ((0 ≤ p.y → startCellY p tile = ⌊p.y / tile⌋) ∧
      (p.y < 0 → startCellY p tile = ⌈p.y / tile⌉)) := by
  constructor
  · constructor
    · intro h
      rw [startCellX]
      exact truncQ_of_nonneg (div_nonneg h (le_of_lt ht))
    · intro h
      rw [startCellX]
      exact truncQ_of_neg (div_neg_of_neg_of_pos h ht)
  · constructor
    · intro h
      rw [startCellY]
      exact truncQ_of_nonneg (div_nonneg h (le_of_lt ht))
    · intro h
      rw [startCellY]
      exact truncQ_of_neg (div_neg_of_neg_of_pos h ht)

/-- Claim C2, witness: the amended theorem applied at the origin
`(-5, 3)` with `cellSize = 20`. -/
theorem claim_C2_witness :
    ((0 ≤ ((-5 : ℚ)) → startCellX ⟨-5, 3⟩ 20 = ⌊((-5 : ℚ)) / 20⌋) ∧
      (((-5 : ℚ)) < 0 → startCellX ⟨-5, 3⟩ 20 = ⌈((-5 : ℚ)) / 20⌉)) ∧
    ((0 ≤ ((3 : ℚ)) → startCellY ⟨-5, 3⟩ 20 = ⌊((3 : ℚ)) / 20⌋) ∧
      (((3 : ℚ)) < 0 → startCellY ⟨-5, 3⟩ 20 = ⌈((3 : ℚ)) / 20⌉)) := by
  exact claim_C2_amended ⟨-5, 3⟩ 20 (by norm_num)

/-- Claim C4: on a grid with no occupied cell, `castRayDDA` returns
exactly `maxDistance`, for every origin, normalized non-degenerate
direction, positive cell size and nonnegative distance budget. -/
theorem claim_C4 (p d : Vec2) (m : ℤ → ℤ → ℤ) (rows cols : ℤ)
    (tile maxD : ℚ) (_ht : 0 < tile) (_hmax : 0 ≤ maxD)
    (_hunit : d.x ^ 2 + d.y ^ 2 = 1) (_hnd : ¬(d.x = 0 ∧ d.y = 0))
    (hfree : ∀ r k, m r k ≠ 1) :
    castRayDDA p d m rows cols tile maxD = .fin maxD := by
  rw [castRayDDA, if_neg]
  rw [castRayRun]
  intro hcontra
  rw [ddaLoop_no_wall m (mkDDAConsts d rows cols tile maxD) hfree _
    (ddaInitState p d tile) rfl] at hcontra
  exact Bool.false_ne_true hcontra

/-- Claim C4, witness: an all-open 3 x 3 grid returns the budget 50
exactly. -/
theorem claim_C4_witness :
    castRayDDA ⟨7, 9⟩ ⟨0, 1⟩ (fun _ _ => 0) 3 3 10 50 = .fin 50 := by
  exact claim_C4 ⟨7, 9⟩ ⟨0, 1⟩ (fun _ _ => 0) 3 3 10 50
    (by norm_num) (by norm_num) (by norm_num) (by norm_num)
    (fun r k => by norm_num)

/-- Claim C3, counterexample: at the origin `(1/2, 1/3)` with the unit
direction `(3/5, 4/5)` both initial boundary distances are exactly
`5/6` (a diagonal-corner crossing), and the cell below the corner is a
wall while the cell to its right is not: the verbatim code (tie steps
vertically first) hits at distance `5/6`, while the flipped tie-break
(tie steps horizontally first) misses the wall and returns the budget
2, so flipping the tie-break branch changes the returned distance. -/
theorem claim_C3_counterexample :
    ((3 : ℚ)/5) ^ 2 + ((4 : ℚ)/5) ^ 2 = 1 ∧
    castRayDDA ⟨1/2, 1/3⟩ ⟨3/5, 4/5⟩
      (fun r c => if r = 1 ∧ c = 0 then 1 else 0) 2 2 1 2 = .fin (5/6) ∧
    castRayDDAFlipTie ⟨1/2, 1/3⟩ ⟨3/5, 4/5⟩
      (fun r c => if r = 1 ∧ c = 0 then 1 else 0) 2 2 1 2 = .fin 2 ∧
    FVal.fin ((5 : ℚ)/6) ≠ FVal.fin 2 := by
  refine ⟨by norm_num, ?_, ?_, by simp only [ne_eq, FVal.fin.injEq]; norm_num⟩
  · norm_num [castRayDDA, castRayRun, ddaInitState, mkDDAConsts, ddaFuel,
      muTerm, rayLenInitX, rayLenInitY, startCellX, startCellY, stepDirX,
      stepDirY, stepIntX, stepIntY, truncQ, ddaLoop, ddaCond, ddaStep,
      ddaAdvance, ddaCheck, FVal.blt, FVal.add, FVal.scale, FVal.smul,
      show |(3/5 : ℚ)| = 3/5 from by rw [abs_of_pos]; norm_num,
      show |(4/5 : ℚ)| = 4/5 from by rw [abs_of_pos]; norm_num]
  · norm_num [castRayDDAFlipTie, castRayRunFlipTie, ddaInitState,
      mkDDAConsts, ddaFuel, muTerm, rayLenInitX, rayLenInitY, startCellX,
      startCellY, stepDirX, stepDirY, stepIntX, stepIntY, truncQ,
      ddaLoopFlipTie, ddaCond, ddaStepFlipTie, ddaCheck, FVal.blt,
      FVal.ble, FVal.add, FVal.scale, FVal.smul,
      show |(3/5 : ℚ)| = 3/5 from by rw [abs_of_pos]; norm_num,
      show |(4/5 : ℚ)| = 4/5 from by rw [abs_of_pos]; norm_num,
      show ⌈(7/10 : ℚ)⌉ = 1 from by rw [Int.ceil_eq_iff]; norm_num,
      show ⌈(14/15 : ℚ)⌉ = 1 from by rw [Int.ceil_eq_iff]; norm_num]

/-- Claim C3, amended: flipping the tie-break branch (`<` versus `<=`
on line 85) leaves the returned distance unchanged on every run in
which no executed iteration starts from an exact tie
`ray_len.x = ray_len.y`; when a tie is crossed, the two orders inspect
different corner-adjacent cells and can return different distances
(see the counterexample). -/
theorem claim_C3_amended (p d : Vec2) (m : ℤ → ℤ → ℤ) (rows cols : ℤ)
    (tile maxD : ℚ)
    (htf : tieFreeLoop m (mkDDAConsts d rows cols tile maxD)
      (ddaFuel (mkDDAConsts d rows cols tile maxD) (ddaInitState p d tile))
      (ddaInitState p d tile) = true) :
    castRayDDA p d m rows cols tile maxD =
      castRayDDAFlipTie p d m rows cols tile maxD := by
  exact castRayDDA_tieFree p d m rows cols tile maxD htf

/-- Claim C3, witness: an axis-aligned run is tie-free, and on it the
two tie-break orders agree. -/
theorem claim_C3_witness :
    castRayDDA ⟨5, 5⟩ ⟨1, 0⟩ (fun r c => if r = 0 ∧ c = 1 then 1 else 0)
      1 2 20 10 =
    castRayDDAFlipTie ⟨5, 5⟩ ⟨1, 0⟩
      (fun r c => if r = 0 ∧ c = 1 then 1 else 0) 1 2 20 10 := by
  exact claim_C3_amended ⟨5, 5⟩ ⟨1, 0⟩
    (fun r c => if r = 0 ∧ c = 1 then 1 else 0) 1 2 20 10
    (by
      have hceil : ⌈(-1/4 : ℚ)⌉ = 0 := by
        rw [Int.ceil_eq_iff]
        norm_num
      norm_num [tieFreeLoop, ddaInitState, mkDDAConsts, ddaFuel, muTerm,
        rayLenInitX, rayLenInitY, startCellX, startCellY, stepDirX, stepDirY,
        stepIntX, stepIntY, truncQ, ddaCond, ddaStep, ddaAdvance, ddaCheck,
        FVal.blt, FVal.add, FVal.scale, FVal.smul, hceil]
      exact fun h => FVal.noConfusion h)

/-- Claim C7: the traversal consults the occupancy map only at cells
with `0 <= col < cols` and `0 <= row < rows`; two maps that agree on
all in-bounds cells produce the same distance, for every origin
(including origins outside the grid bounds) and direction. -/
theorem claim_C7 (p d : Vec2) (m₁ m₂ : ℤ → ℤ → ℤ) (rows cols : ℤ)
    (tile maxD : ℚ)
    (hagree : ∀ r k, 0 ≤ r → r < rows → 0 ≤ k → k < cols →
      m₁ r k = m₂ r k) :
    castRayDDA p d m₁ rows cols tile maxD =
      castRayDDA p d m₂ rows cols tile maxD := by
  rw [castRayDDA, castRayDDA, castRayRun, castRayRun,
    ddaLoop_map_agree m₁ m₂ (mkDDAConsts d rows cols tile maxD) hagree]

/-- Claim C7, witness: a map whose out-of-bounds cells are all walls
agrees in bounds with the all-open map, and a call whose origin lies
outside the grid still functions and gives the same result on both. -/
theorem claim_C7_witness :
    castRayDDA ⟨-30, 5⟩ ⟨1, 0⟩
      (fun r c => if r < 0 ∨ c < 0 ∨ 2 ≤ r ∨ 2 ≤ c then 5 else 0)
      2 2 20 100 =
    castRayDDA ⟨-30, 5⟩ ⟨1, 0⟩ (fun _ _ => 0) 2 2 20 100 := by
  exact claim_C7 ⟨-30, 5⟩ ⟨1, 0⟩
    (fun r c => if r < 0 ∨ c < 0 ∨ 2 ≤ r ∨ 2 ≤ c then 5 else 0)
    (fun _ _ => 0) 2 2 20 100
    (fun r k h1 h2 h3 h4 => by
      show (if r < 0 ∨ k < 0 ∨ 2 ≤ r ∨ 2 ≤ k then (5 : ℤ) else 0) = 0
      rw [if_neg (by omega)])

theorem stepIntX_cases (d : Vec2) : stepIntX d = -1 ∨ stepIntX d = 1 := by
  rw [stepIntX]
  by_cases h : d.x < 0
  · left; rw [if_pos h]
  · right; rw [if_neg h]

theorem stepIntY_cases (d : Vec2) : stepIntY d = -1 ∨ stepIntY d = 1 := by
  rw [stepIntY]
  by_cases h : d.y < 0
  · left; rw [if_pos h]
  · right; rw [if_neg h]

/-- Claim C8: the returned distance does not depend on the occupancy
of the cell containing the origin: overwriting that cell with any
value leaves `castRayDDA` unchanged, because both cell indices move
monotonically away from the starting cell and occupancy is tested only
on cells entered after a step. -/
theorem claim_C8 (p d : Vec2) (m : ℤ → ℤ → ℤ) (rows cols : ℤ)
    (tile maxD : ℚ) (v : ℤ) :
    castRayDDA p d
      (updateCell m (startCellY p tile) (startCellX p tile) v)
      rows cols tile maxD =
    castRayDDA p d m rows cols tile maxD := by
  rw [castRayDDA, castRayDDA, castRayRun, castRayRun,
    ddaLoop_avoid_cell
      (updateCell m (startCellY p tile) (startCellX p tile) v) m
      (mkDDAConsts d rows cols tile maxD)
      (startCellX p tile) (startCellY p tile)
      (fun r k hne => by rw [updateCell, if_neg hne])
      _ (ddaInitState p d tile) ?_]
  intro a b hab
  show ¬(startCellX p tile + a * stepIntX d = startCellX p tile ∧
    startCellY p tile + b * stepIntY d = startCellY p tile)
  rintro ⟨h1, h2⟩
  rcases stepIntX_cases d with hx | hx <;>
    rcases stepIntY_cases d with hy | hy <;>
    rw [hx] at h1 <;> rw [hy] at h2 <;> omega

/-- Claim C9: the dashed-segment rasterizer applied to the zero-length
segment from `P` to `P` emits no sub-segments at all, for every point
and every positive dash length; the zero distance makes the step count
zero before the direction is ever used, and the normalization guard
returns the zero vector instead of dividing by zero. -/
theorem claim_C9 (P : Vec2) (len D : ℚ) (_hlen : 0 < len) (_hD : 0 ≤ D)
    (hDsq : D ^ 2 = (P.x - P.x) ^ 2 + (P.y - P.y) ^ 2) :
    dottedLineSegs P P D len = [] := by
  have hD2 : D ^ 2 = 0 := by rw [hDsq]; ring
  have hD0 : D = 0 := by
    exact pow_eq_zero_iff (two_ne_zero) |>.mp hD2
  rw [hD0, dottedLineSegs, zero_div, truncQ_of_nonneg (le_refl (0 : ℚ)),
    Int.floor_zero, Int.toNat_zero]
  rfl

/-- Claim C9, witness: the theorem applied at the point `(1, 2)` with
the dash length 4 used by the source. -/
theorem claim_C9_witness : dottedLineSegs ⟨1, 2⟩ ⟨1, 2⟩ 0 4 = [] := by
  exact claim_C9 ⟨1, 2⟩ 4 0 (by norm_num) (by norm_num) (by norm_num)

/-- Claim C5: for an axis-aligned ray (direction `(1,0)` or `(0,1)`)
whose starting row (respectively column) contains exactly one occupied
cell, strictly ahead of the starting cell and within the distance
budget, `castRayDDA` returns exactly the analytic distance from the
origin to the near edge of that cell (the rational model is exact, so
the float tolerance of the claim is satisfied with error 0); the
concrete 80 x 80 scenario of the claim is the witness below. -/
theorem claim_C5 :
    (∀ (p : Vec2) (m : ℤ → ℤ → ℤ) (rows cols : ℤ) (tile maxD : ℚ)
      (cw : ℤ), 0 < tile →
      0 ≤ startCellY p tile → startCellY p tile < rows →
      0 ≤ cw → cw < cols → startCellX p tile < cw →
      m (startCellY p tile) cw = 1 →
      (∀ k, k ≠ cw → m (startCellY p tile) k ≠ 1) →
      (cw : ℚ) * tile - p.x ≤ maxD →
      castRayDDA p ⟨1, 0⟩ m rows cols tile maxD =
        .fin ((cw : ℚ) * tile - p.x)) ∧
    (∀ (p : Vec2) (m : ℤ → ℤ → ℤ) (rows cols : ℤ) (tile maxD : ℚ)
      (rw : ℤ), 0 < tile →
      0 ≤ startCellX p tile → startCellX p tile < cols →
      0 ≤ rw → rw < rows → startCellY p tile < rw →
      m rw (startCellX p tile) = 1 →
      (∀ k, k ≠ rw → m k (startCellX p tile) ≠ 1) →
      (rw : ℚ) * tile - p.y ≤ maxD →
      castRayDDA p ⟨0, 1⟩ m rows cols tile maxD =
        .fin ((rw : ℚ) * tile - p.y)) := by
  constructor
  · intro p m rows cols tile maxD cw ht h1 h2 h3 h4 h5 h6 h7 h8
    exact castRayDDA_axisX p m rows cols tile maxD cw ht h1 h2 h3 h4 h5
      h6 h7 h8
  · intro p m rows cols tile maxD rw ht h1 h2 h3 h4 h5 h6 h7 h8
    exact castRayDDA_axisY p m rows cols tile maxD rw ht h1 h2 h3 h4 h5
      h6 h7 h8

/-- Claim C5, witness: the concrete scenario of the claim: an 80 x 80
grid with cell size 20, origin `(400, 400)`, direction `(1, 0)` and a
single occupied cell at row 20, column 25, gives exactly
`25 * 20 - 400 = 100`. -/
theorem claim_C5_witness :
    castRayDDA ⟨400, 400⟩ ⟨1, 0⟩
      (fun r c => if r = 20 ∧ c = 25 then 1 else 0) 80 80 20 1000 =
      .fin 100 := by
  have hscy : startCellY ⟨400, 400⟩ 20 = 20 := by
    norm_num [startCellY, truncQ]
  have hscx : startCellX ⟨400, 400⟩ 20 = 20 := by
    norm_num [startCellX, truncQ]
  have h := claim_C5.1 ⟨400, 400⟩
    (fun r c => if r = 20 ∧ c = 25 then 1 else 0) 80 80 20 1000 25
    (by norm_num)
    (by rw [hscy]; norm_num)
    (by rw [hscy]; norm_num)
    (by norm_num)
    (by norm_num)
    (by rw [hscx]; norm_num)
    (by rw [hscy]; norm_num)
    (by
      intro k hk
      rw [hscy]
      show (if (20 : ℤ) = 20 ∧ k = 25 then (1 : ℤ) else 0) ≠ 1
      rw [if_neg (by simp [hk])]
      norm_num)
    (by norm_num)
  rw [show ((25 : ℤ) : ℚ) * 20 - 400 = 100 from by norm_num] at h
  exact h

/-- Claim C6, counterexample: there is no constant `C` making the
iteration count of the traversal at most
`maxDistance / (cellSize * min(stepLen.x, stepLen.y)) + C` for all
inputs satisfying the preconditions: for the unit direction
`(3/5, 4/5)` from the origin with `cellSize = 1` and
`maxDistance = 5 * N` the loop runs `7 * N - 1` iterations while the
claimed bound is `4 * N + C`, so every candidate constant is exceeded
for `N` large enough. -/
theorem claim_C6_counterexample :
    ¬ ∃ C : ℚ, ∀ (p d : Vec2) (m : ℤ → ℤ → ℤ) (rows cols : ℤ)
      (tile maxD : ℚ), 0 < tile → 0 ≤ maxD →
      d.x ^ 2 + d.y ^ 2 = 1 → ¬(d.x = 0 ∧ d.y = 0) →
      ((castRaySteps p d m rows cols tile maxD : ℕ) : ℚ) ≤
        maxD / (tile * minStepQ d) + C := by
  rintro ⟨C, hC⟩
  set t : ℕ := (⌈C⌉).toNat with hts
  set N : ℕ := t + 1 with hNs
  have hN1 : 1 ≤ N := by omega
  have hsteps := c6_steps N hN1
  have happ := hC ⟨0, 0⟩ ⟨3/5, 4/5⟩ (fun _ _ => 0) 0 0 1 (5 * (N : ℚ))
    (by norm_num) (by positivity) (by norm_num) (by norm_num)
  rw [hsteps] at happ
  have hsx : stepDirX ⟨3/5, 4/5⟩ = .fin (5/3) := by
    rw [stepDirX]
    norm_num [FVal.fin.injEq,
      show |(3/5 : ℚ)| = 3/5 from by rw [abs_of_pos]; norm_num]
  have hsy : stepDirY ⟨3/5, 4/5⟩ = .fin (5/4) := by
    rw [stepDirY]
    norm_num [FVal.fin.injEq,
      show |(4/5 : ℚ)| = 4/5 from by rw [abs_of_pos]; norm_num]
  have hmin : minStepQ ⟨3/5, 4/5⟩ = 5/4 := by
    rw [minStepQ, hsx, hsy]
    show min ((5 : ℚ)/3) (5/4) = 5/4
    rw [min_eq_right (by norm_num)]
  rw [hmin] at happ
  have hcast : ((7 * N - 1 : ℕ) : ℚ) = 7 * (N : ℚ) - 1 := by
    have h1 : 1 ≤ 7 * N := by omega
    rw [Nat.cast_sub h1]
    push_cast
    ring
  rw [hcast] at happ
  have h45 : 5 * (N : ℚ) / (1 * (5/4)) = 4 * (N : ℚ) := by
    field_simp
    ring
  rw [h45] at happ
  have hCle : C ≤ (t : ℚ) := by
    calc C ≤ (⌈C⌉ : ℚ) := Int.le_ceil C
      _ ≤ ((t : ℕ) : ℚ) := by
          rw [hts]
          exact_mod_cast Int.self_le_toNat ⌈C⌉
  have hNq : (N : ℚ) = (t : ℚ) + 1 := by
    rw [hNs]
    push_cast
    ring
  have ht0 : (0 : ℚ) ≤ (t : ℚ) := by positivity
  rw [hNq] at happ
  linarith

/-- Claim C6, amended: the loop always terminates through its own
guard, and the number of iterations is at most
`2 * maxDistance / (cellSize * min(stepLen.x, stepLen.y))` plus the
constant 5: each of the two axes can contribute up to
`maxDistance / (cellSize * stepLen)` crossings of its own grid lines
(the claimed bound counted only the cheaper axis, see the
counterexample). -/
theorem claim_C6_amended (p d : Vec2) (m : ℤ → ℤ → ℤ) (rows cols : ℤ)
    (tile maxD : ℚ) (ht : 0 < tile) (hmax : 0 ≤ maxD)
    (_hunit : d.x ^ 2 + d.y ^ 2 = 1) (hnd : ¬(d.x = 0 ∧ d.y = 0)) :
    ddaCond (mkDDAConsts d rows cols tile maxD)
      (castRayRun p d m rows cols tile maxD) = false ∧
    ((castRaySteps p d m rows cols tile maxD : ℕ) : ℚ) ≤
      2 * (maxD / (tile * minStepQ d)) + 5 := by
  exact ⟨castRayRun_cond_false p d m rows cols tile maxD ht,
    castRaySteps_bound p d m rows cols tile maxD ht hmax hnd⟩

/-- Claim C6, witness: the amended theorem applied at a concrete
input. -/
theorem claim_C6_witness :
    ddaCond (mkDDAConsts ⟨1, 0⟩ 1 2 20 10)
      (castRayRun ⟨5, 5⟩ ⟨1, 0⟩ (fun _ _ => 0) 1 2 20 10) = false ∧
    ((castRaySteps ⟨5, 5⟩ ⟨1, 0⟩ (fun _ _ => 0) 1 2 20 10 : ℕ) : ℚ) ≤
      2 * (10 / (20 * minStepQ ⟨1, 0⟩)) + 5 := by
  exact claim_C6_amended ⟨5, 5⟩ ⟨1, 0⟩ (fun _ _ => 0) 1 2 20 10
    (by norm_num) (by norm_num) (by norm_num) (by norm_num)

/-- Claim C10: with `D` the distance from `start_pos` to `end_pos` and
dash length `L > 0`, the emitted sub-segments of the dashed rasterizer
are exactly the segments from `start + (2k+1) * L * dir` to
`start + (2k+2) * L * dir` for `k` ranging over
`range ((steps + 1) / 2)` with `steps = (int)(D / (2L))` (this index
set is exactly `{k | 2k < steps}`): the first dash begins one dash
length after the start, and both endpoints of every emitted dash lie
within distance `D/2 + L` of the start (stated on squared
distances). -/
theorem claim_C10 (sp ep : Vec2) (D L : ℚ) (hL : 0 < L) (hD : 0 ≤ D)
    (hDsq : D ^ 2 = (ep.x - sp.x) ^ 2 + (ep.y - sp.y) ^ 2) :
    (dottedLineSegs sp ep D L =
      (List.range (((truncQ (D / (L * 2))).toNat + 1) / 2)).map
        (fun k : ℕ =>
          ((⟨sp.x + (normDir sp ep D).x * L * (2 * (k : ℚ) + 1),
             sp.y + (normDir sp ep D).y * L * (2 * (k : ℚ) + 1)⟩ : Vec2),
           (⟨sp.x + (normDir sp ep D).x * L * (2 * (k : ℚ) + 2),
             sp.y + (normDir sp ep D).y * L * (2 * (k : ℚ) + 2)⟩ : Vec2)))) ∧
    (∀ a b : Vec2, (a, b) ∈ dottedLineSegs sp ep D L →
      (a.x - sp.x) ^ 2 + (a.y - sp.y) ^ 2 ≤ (D / 2 + L) ^ 2 ∧
      (b.x - sp.x) ^ 2 + (b.y - sp.y) ^ 2 ≤ (D / 2 + L) ^ 2) := by
  have h1 : dottedLineSegs sp ep D L =
      (List.range (((truncQ (D / (L * 2))).toNat + 1) / 2)).map
        (fun k : ℕ =>
          ((⟨sp.x + (normDir sp ep D).x * L * (2 * (k : ℚ) + 1),
             sp.y + (normDir sp ep D).y * L * (2 * (k : ℚ) + 1)⟩ : Vec2),
           (⟨sp.x + (normDir sp ep D).x * L * (2 * (k : ℚ) + 2),
             sp.y + (normDir sp ep D).y * L * (2 * (k : ℚ) + 2)⟩ : Vec2))) := by
    rw [dottedLineSegs, dottedLoop_closed]
    simp only [Nat.zero_add]
    rw [filter_even_range_map]
    apply List.map_congr_left
    intro k _
    simp only [Prod.mk.injEq, Vec2.mk.injEq]
    and_intros <;> (push_cast <;> ring)
  refine ⟨h1, ?_⟩
  intro a b hmem
  rw [h1] at hmem
  rcases List.mem_map.mp hmem with ⟨k, hkr, heq⟩
  rw [List.mem_range] at hkr
  by_cases hD0 : D = 0
  · exfalso
    have hz : (truncQ (D / (L * 2))).toNat = 0 := by
      rw [hD0]
      norm_num [truncQ]
    omega
  · have hdir : (normDir sp ep D).x ^ 2 + (normDir sp ep D).y ^ 2 = 1 := by
      rw [normDir, if_neg hD0]
      dsimp only
      field_simp
      linarith [hDsq]
    have hsteps_le :
        (((truncQ (D / (L * 2))).toNat : ℕ) : ℚ) ≤ D / (L * 2) := by
      apply intCast_toNat_le
      · rw [truncQ_of_nonneg (by positivity)]
        exact_mod_cast Int.floor_le (D / (L * 2))
      · positivity
    have hnorm : ∀ m : ℚ,
        (sp.x + (normDir sp ep D).x * L * m - sp.x) ^ 2 +
          (sp.y + (normDir sp ep D).y * L * m - sp.y) ^ 2 =
          (L * m) ^ 2 := by
      intro m
      have hr : (sp.x + (normDir sp ep D).x * L * m - sp.x) ^ 2 +
          (sp.y + (normDir sp ep D).y * L * m - sp.y) ^ 2 =
          ((normDir sp ep D).x ^ 2 + (normDir sp ep D).y ^ 2) *
            (L * m) ^ 2 := by ring
      rw [hr, hdir, one_mul]
    have hbound : ∀ m : ℚ, 0 ≤ m →
        m ≤ (((truncQ (D / (L * 2))).toNat : ℕ) : ℚ) + 1 →
        (L * m) ^ 2 ≤ (D / 2 + L) ^ 2 := by
      intro m hm0 hm
      have h2 : m ≤ D / (L * 2) + 1 := by linarith
      have h3 : L * m ≤ D / 2 + L := by
        calc L * m ≤ L * (D / (L * 2) + 1) :=
              mul_le_mul_of_nonneg_left h2 (le_of_lt hL)
          _ = D / 2 + L := by
              field_simp
              ring
      have h0 : 0 ≤ L * m := by positivity
      exact pow_le_pow_left₀ h0 h3 2
    have hm1 : 2 * k + 1 ≤ (truncQ (D / (L * 2))).toNat := by omega
    have hk1 : 2 * (k : ℚ) + 1 ≤
        (((truncQ (D / (L * 2))).toNat : ℕ) : ℚ) + 1 := by
      have hc : ((2 * k + 1 : ℕ) : ℚ) ≤
          (((truncQ (D / (L * 2))).toNat + 1 : ℕ) : ℚ) :=
        Nat.cast_le.mpr (by omega)
      push_cast at hc
      linarith
    have hk2 : 2 * (k : ℚ) + 2 ≤
        (((truncQ (D / (L * 2))).toNat : ℕ) : ℚ) + 1 := by
      have hc : ((2 * k + 2 : ℕ) : ℚ) ≤
          (((truncQ (D / (L * 2))).toNat + 1 : ℕ) : ℚ) :=
        Nat.cast_le.mpr (by omega)
      push_cast at hc
      linarith
    injection heq with ha hb
    subst ha
    subst hb
    constructor
    · dsimp only
      rw [hnorm]
      exact hbound _ (by positivity) hk1
    · dsimp only
      rw [hnorm]
      exact hbound _ (by positivity) hk2

/-- Claim C10, witness: the segment from the origin to `(6, 8)` (length
10) with dash length 1. -/
theorem claim_C10_witness :
    (dottedLineSegs ⟨0, 0⟩ ⟨6, 8⟩ 10 1 =
      (List.range (((truncQ ((10 : ℚ) / (1 * 2))).toNat + 1) / 2)).map
        (fun k : ℕ =>
          ((⟨(⟨0, 0⟩ : Vec2).x +
               (normDir ⟨0, 0⟩ ⟨6, 8⟩ 10).x * 1 * (2 * (k : ℚ) + 1),
             (⟨0, 0⟩ : Vec2).y +
               (normDir ⟨0, 0⟩ ⟨6, 8⟩ 10).y * 1 * (2 * (k : ℚ) + 1)⟩ :
               Vec2),
           (⟨(⟨0, 0⟩ : Vec2).x +
               (normDir ⟨0, 0⟩ ⟨6, 8⟩ 10).x * 1 * (2 * (k : ℚ) + 2),
             (⟨0, 0⟩ : Vec2).y +
               (normDir ⟨0, 0⟩ ⟨6, 8⟩ 10).y * 1 * (2 * (k : ℚ) + 2)⟩ :
               Vec2)))) ∧
    (∀ a b : Vec2, (a, b) ∈ dottedLineSegs ⟨0, 0⟩ ⟨6, 8⟩ 10 1 →
      (a.x - (⟨0, 0⟩ : Vec2).x) ^ 2 + (a.y - (⟨0, 0⟩ : Vec2).y) ^ 2 ≤
        ((10 : ℚ) / 2 + 1) ^ 2 ∧
      (b.x - (⟨0, 0⟩ : Vec2).x) ^ 2 + (b.y - (⟨0, 0⟩ : Vec2).y) ^ 2 ≤
        ((10 : ℚ) / 2 + 1) ^ 2) :=
  claim_C10 ⟨0, 0⟩ ⟨6, 8⟩ 10 1 (by norm_num) (by norm_num)
    (by norm_num)

end RaycastDemo
